import Mathlib

/-!
# Verification of the image-matrix core (slicer / stitcher / constrained encoder)

Shallow embedding of the algorithmic core of the repository:

* `utils.save_compressed_image` — format dispatch and the binary-search-over-quality
  constrained encoder (JPEG and PDF paths);
* `slicer._is_boundary_solid`, `slicer._find_best_cut`, `slicer.slice_image`,
  `slicer.slice_grid_image` — linear and grid slicing with the content-aware
  cut-point search;
* `stitcher.stitch_images`, `stitcher._stitch_grid` — grouping and batch stitching.

Python floats are modelled by `ℚ` (`float('inf')` by `⊤ : WithTop ℚ`), Python ints by
`Int`/`Nat`, images by explicit pixel grids, and the encoder's quality→size mapping by
an abstract function `Nat → Nat`.  File-system effects are modelled by explicit
outcome records (which file writes / directory creations happen).
-/

/-- Python `int(...)` applied to a float: truncation toward zero. -/
def pyint (q : ℚ) : Int := if 0 ≤ q then ⌊q⌋ else ⌈q⌉

theorem pyint_intCast (n : Int) : pyint (n : ℚ) = n := by
  unfold pyint
  split <;> simp

theorem pyint_natCast (n : Nat) : pyint (n : ℚ) = n := by
  have := pyint_intCast (n : Int)
  simpa using this

theorem pyint_of_nonneg {q : ℚ} (h : 0 ≤ q) : pyint q = ⌊q⌋ := by
  unfold pyint
  simp [h]

/-- Python `range(a, b)` over integers: the list `[a, a+1, …, b-1]`. -/
def intRange (a b : Int) : List Int :=
  (List.range (b - a).toNat).map (fun (i : Nat) => a + (i : Int))

theorem mem_intRange {a b p : Int} (h : p ∈ intRange a b) : a ≤ p ∧ p < b := by
  unfold intRange at h
  rcases List.mem_map.mp h with ⟨i, hi, rfl⟩
  have hlt : (i : Int) < b - a := by
    have h1 := List.mem_range.mp hi
    have h2 : ((b - a).toNat : Int) ≤ b - a ∨ b - a < 0 := by
      rcases le_or_lt 0 (b - a) with hba | hba
      · exact Or.inl (by simpa using Int.toNat_of_nonneg hba)
      · exact Or.inr hba
    rcases h2 with h2 | h2
    · exact lt_of_lt_of_le (by exact_mod_cast h1) h2
    · exfalso
      have : (b - a).toNat = 0 := Int.toNat_of_nonpos (le_of_lt h2)
      simp [this] at h1
  constructor
  · simp
  · omega

theorem intRange_mem_of {a b p : Int} (h1 : a ≤ p) (h2 : p < b) : p ∈ intRange a b := by
  unfold intRange
  refine List.mem_map.mpr ⟨(p - a).toNat, ?_, ?_⟩
  · refine List.mem_range.mpr ?_
    have hpa : (0 : Int) ≤ p - a := by omega
    have hba : (0 : Int) ≤ b - a := by omega
    omega
  · have hpa : (0 : Int) ≤ p - a := by omega
    have := Int.toNat_of_nonneg hpa
    omega

theorem intRange_pairwise (a b : Int) : (intRange a b).Pairwise (· < ·) := by
  unfold intRange
  refine List.pairwise_map.mpr ?_
  refine (List.pairwise_lt_range _).imp ?_
  intro x y hxy
  omega

/-! ## Constrained encoder (`utils.save_compressed_image`)

The quality→encoded-size mapping of the underlying codec is abstracted as a function
`size : Nat → Nat`; the encoder itself never inspects the bytes, only their length,
so this abstraction is faithful to `utils.py`. -/

/-- The binary-search loop shared (in shape) by the JPEG and PDF branches of
`save_compressed_image`:

```python
while min_q <= max_q:
    mid_q = (min_q + max_q) // 2
    ...encode at mid_q...
    if size <= target_bytes: best_q = mid_q; min_q = mid_q + 1
    else: max_q = mid_q - 1
```

Structural recursion on an explicit fuel so that concrete runs compute. -/
def bsearchFuel (size : Nat → Nat) (target : Nat) : Nat → Nat → Nat → Nat → Nat
  | 0, _, _, best => best
  | fuel + 1, lo, hi, best =>
    if lo ≤ hi then
      let mid := (lo + hi) / 2
      if size mid ≤ target then bsearchFuel size target fuel (mid + 1) hi mid
      else bsearchFuel size target fuel lo (mid - 1) best
    else best

/-- The binary search entered with bounds `lo ≤ hi`; `hi + 1 - lo + 1` fuel always
suffices because each iteration strictly shrinks `hi + 1 - lo`. -/
def bsearch (size : Nat → Nat) (target lo hi best : Nat) : Nat :=
  bsearchFuel size target (hi + 1 - lo + 1) lo hi best

/-- Quality chosen by the JPEG branch of `save_compressed_image` when a positive
ceiling is given: probe at 95, accept it if it fits, otherwise binary-search
`[5, 90]` with best-effort fallback 5. -/
def jpegQuality (size : Nat → Nat) (target : Nat) : Nat :=
  if size 95 ≤ target then 95 else bsearch size target 5 90 5

/-- Quality chosen by the PDF branch of `save_compressed_image` when a positive
ceiling is given: binary-search `[10, 95]` with best-effort fallback 10 and no
initial probe. -/
def pdfQuality (size : Nat → Nat) (target : Nat) : Nat :=
  bsearch size target 10 95 10

/-- What `save_compressed_image` writes to disk, if anything. -/
inductive SaveAction where
  | jpeg (quality : Nat)
  | png
  | pdf (quality : Nat)
  deriving DecidableEq, Repr

/-- Python `str.upper()`: uppercase the string character by character. -/
def pyUpper (s : String) : String := ⟨s.data.map Char.toUpper⟩

/-- Extension-based format inference of `save_compressed_image`, with default
JPEG. -/
def inferExtFmt (ext : String) : String :=
  if ext = ".jpg" ∨ ext = ".jpeg" then "JPEG"
  else if ext = ".png" then "PNG"
  else if ext = ".pdf" then "PDF"
  else "JPEG"

/-- Format resolution at the top of `save_compressed_image`:
`if output_format: fmt = output_format.upper() else: ...infer from ext...`.
Python truthiness makes both `None` and the empty string fall back to
extension-based inference; only a non-empty explicit `output_format` overrides the
extension. -/
def resolveFmt (output_format : Option String) (ext : String) : String :=
  match output_format with
  | some s => if s = "" then inferExtFmt ext else pyUpper s
  | none => inferExtFmt ext

/-- Python `not max_kb or max_kb <= 0`: the ceiling is absent or non-positive. -/
def noLimit : Option Int → Bool
  | none => true
  | some k => decide (k ≤ 0)

/-- `max_kb * 1024` for a present, positive ceiling. -/
def targetBytes : Option Int → Nat
  | none => 0
  | some k => k.toNat * 1024

/-- Model of `utils.save_compressed_image`.  `jpegSize q` (resp. `pdfSize q`) is the
byte length produced by encoding the image as JPEG (resp. single-page PDF) at
quality `q`; the result records the write performed, `none` meaning the function
returned without writing anything. -/
def saveCompressedImage (jpegSize pdfSize : Nat → Nat) (output_format : Option String)
    (ext : String) (max_kb : Option Int) : Option SaveAction :=
  let fmt := resolveFmt output_format ext
  if fmt = "PDF" then
    if noLimit max_kb then some (SaveAction.pdf 95)
    else some (SaveAction.pdf (pdfQuality pdfSize (targetBytes max_kb)))
  else if fmt = "PNG" then some SaveAction.png
  else if fmt = "JPEG" then
    if noLimit max_kb then some (SaveAction.jpeg 95)
    else some (SaveAction.jpeg (jpegQuality jpegSize (targetBytes max_kb)))
  else none

/-! ### Invariants of the quality binary search -/

theorem bsearchFuel_ge_best (size : Nat → Nat) (target : Nat) :
    ∀ fuel lo hi best, hi + 1 - lo ≤ fuel → 1 ≤ lo → best ≤ lo →
      best ≤ bsearchFuel size target fuel lo hi best := by
  intro fuel
  induction fuel with
  | zero => intro lo hi best _ _ _; simp [bsearchFuel]
  | succ f ih =>
    intro lo hi best hfuel hlo hble
    by_cases hlh : lo ≤ hi
    · have hmidlo : lo ≤ (lo + hi) / 2 := by omega
      have hmidhi : (lo + hi) / 2 ≤ hi := by omega
      by_cases hfit : size ((lo + hi) / 2) ≤ target
      · have heq : bsearchFuel size target (f + 1) lo hi best
            = bsearchFuel size target f ((lo + hi) / 2 + 1) hi ((lo + hi) / 2) := by
          simp [bsearchFuel, hlh, hfit]
        have h2 := ih ((lo + hi) / 2 + 1) hi ((lo + hi) / 2) (by omega) (by omega) (by omega)
        rw [heq]
        omega
      · have heq : bsearchFuel size target (f + 1) lo hi best
            = bsearchFuel size target f lo ((lo + hi) / 2 - 1) best := by
          simp [bsearchFuel, hlh, hfit]
        have h2 := ih lo ((lo + hi) / 2 - 1) best (by omega) hlo hble
        rw [heq]
        exact h2
    · simp [bsearchFuel, hlh]

theorem bsearchFuel_mem (size : Nat → Nat) (target : Nat) :
    ∀ fuel lo hi best, hi + 1 - lo ≤ fuel → 1 ≤ lo →
      bsearchFuel size target fuel lo hi best = best ∨
      (lo ≤ bsearchFuel size target fuel lo hi best ∧
        bsearchFuel size target fuel lo hi best ≤ hi ∧
        size (bsearchFuel size target fuel lo hi best) ≤ target) := by
  intro fuel
  induction fuel with
  | zero => intro lo hi best _ _; left; simp [bsearchFuel]
  | succ f ih =>
    intro lo hi best hfuel hlo
    by_cases hlh : lo ≤ hi
    · have hmidlo : lo ≤ (lo + hi) / 2 := by omega
      have hmidhi : (lo + hi) / 2 ≤ hi := by omega
      by_cases hfit : size ((lo + hi) / 2) ≤ target
      · have heq : bsearchFuel size target (f + 1) lo hi best
            = bsearchFuel size target f ((lo + hi) / 2 + 1) hi ((lo + hi) / 2) := by
          simp [bsearchFuel, hlh, hfit]
        rw [heq]
        rcases ih ((lo + hi) / 2 + 1) hi ((lo + hi) / 2) (by omega) (by omega) with h | h
        · right
          rw [h]
          exact ⟨hmidlo, hmidhi, hfit⟩
        · right
          exact ⟨by omega, h.2.1, h.2.2⟩
      · have heq : bsearchFuel size target (f + 1) lo hi best
            = bsearchFuel size target f lo ((lo + hi) / 2 - 1) best := by
          simp [bsearchFuel, hlh, hfit]
        rw [heq]
        rcases ih lo ((lo + hi) / 2 - 1) best (by omega) hlo with h | h
        · left; exact h
        · right
          exact ⟨h.1, by omega, h.2.2⟩
    · left; simp [bsearchFuel, hlh]

theorem bsearchFuel_max (size : Nat → Nat) (target : Nat) (hmono : Monotone size) :
    ∀ fuel lo hi best, hi + 1 - lo ≤ fuel → 1 ≤ lo →
      ∀ q, lo ≤ q → q ≤ hi → size q ≤ target →
        q ≤ bsearchFuel size target fuel lo hi best := by
  intro fuel
  induction fuel with
  | zero => intro lo hi best hfuel _ q hq1 hq2 _; omega
  | succ f ih =>
    intro lo hi best hfuel hlo q hq1 hq2 hqfit
    have hlh : lo ≤ hi := le_trans hq1 hq2
    have hmidlo : lo ≤ (lo + hi) / 2 := by omega
    have hmidhi : (lo + hi) / 2 ≤ hi := by omega
    by_cases hfit : size ((lo + hi) / 2) ≤ target
    · have heq : bsearchFuel size target (f + 1) lo hi best
          = bsearchFuel size target f ((lo + hi) / 2 + 1) hi ((lo + hi) / 2) := by
        simp [bsearchFuel, hlh, hfit]
      rw [heq]
      by_cases hqmid : q ≤ (lo + hi) / 2
      · have := bsearchFuel_ge_best size target f ((lo + hi) / 2 + 1) hi ((lo + hi) / 2)
          (by omega) (by omega) (by omega)
        omega
      · exact ih ((lo + hi) / 2 + 1) hi ((lo + hi) / 2) (by omega) (by omega) q
          (by omega) hq2 hqfit
    · have heq : bsearchFuel size target (f + 1) lo hi best
          = bsearchFuel size target f lo ((lo + hi) / 2 - 1) best := by
        simp [bsearchFuel, hlh, hfit]
      rw [heq]
      have hqlt : q < (lo + hi) / 2 := by
        by_contra hcon
        exact hfit (le_trans (hmono (by omega)) hqfit)
      exact ih lo ((lo + hi) / 2 - 1) best (by omega) hlo q hq1 (by omega) hqfit

theorem bsearch_ge_best (size : Nat → Nat) (target lo hi best : Nat) (hlo : 1 ≤ lo)
    (hble : best ≤ lo) : best ≤ bsearch size target lo hi best :=
  bsearchFuel_ge_best size target _ lo hi best (by omega) hlo hble

theorem bsearch_mem (size : Nat → Nat) (target lo hi best : Nat) (hlo : 1 ≤ lo) :
    bsearch size target lo hi best = best ∨
    (lo ≤ bsearch size target lo hi best ∧ bsearch size target lo hi best ≤ hi ∧
      size (bsearch size target lo hi best) ≤ target) :=
  bsearchFuel_mem size target _ lo hi best (by omega) hlo

theorem bsearch_max (size : Nat → Nat) (target lo hi best : Nat) (hmono : Monotone size)
    (hlo : 1 ≤ lo) (q : Nat) (hq1 : lo ≤ q) (hq2 : q ≤ hi) (hqfit : size q ≤ target) :
    q ≤ bsearch size target lo hi best :=
  bsearchFuel_max size target hmono _ lo hi best (by omega) hlo q hq1 hq2 hqfit

/-! ### Claims about the constrained encoder -/

/-- **C2.** For every image and size ceiling `C` KB achievable at some quality ≥ 5,
the JPEG path of `save_compressed_image` writes an artifact of size ≤ `C*1024` bytes
whose quality is the maximum quality in `[5,90] ∪ {95}` satisfying that bound
(assuming encoded size is monotone in quality): it probes at quality 95 and accepts
that result if it fits, otherwise binary-searches `[5,90]` for the highest fitting
quality, and if no quality fits it falls back to the lowest bound, quality 5. -/
theorem claim_C2_jpeg_constrained (size psize : Nat → Nat) (C : Int)
    (hmono : Monotone size) (hC : 0 < C) :
    saveCompressedImage size psize (some "JPEG") ".jpg" (some C)
      = some (SaveAction.jpeg (jpegQuality size (C.toNat * 1024))) ∧
    ((∃ q, 5 ≤ q ∧ size q ≤ C.toNat * 1024) →
      size (jpegQuality size (C.toNat * 1024)) ≤ C.toNat * 1024 ∧
      (∀ q, (5 ≤ q ∧ q ≤ 90) ∨ q = 95 → size q ≤ C.toNat * 1024 →
        q ≤ jpegQuality size (C.toNat * 1024)) ∧
      ((5 ≤ jpegQuality size (C.toNat * 1024) ∧ jpegQuality size (C.toNat * 1024) ≤ 90) ∨
        jpegQuality size (C.toNat * 1024) = 95)) ∧
    ((∀ q, 5 ≤ q → C.toNat * 1024 < size q) → jpegQuality size (C.toNat * 1024) = 5) := by
  have hnl : noLimit (some C) = false := by
    simp only [noLimit, decide_eq_false_iff_not]
    omega
  have hup : pyUpper "JPEG" = "JPEG" := by decide
  refine ⟨?_, ?_, ?_⟩
  · simp [saveCompressedImage, resolveFmt, hup, hnl, targetBytes]
  · rintro ⟨q0, hq0, hq0fit⟩
    have h5fit : size 5 ≤ C.toNat * 1024 := le_trans (hmono hq0) hq0fit
    unfold jpegQuality
    by_cases hprobe : size 95 ≤ C.toNat * 1024
    · rw [if_pos hprobe]
      refine ⟨hprobe, ?_, Or.inr rfl⟩
      intro q hq _
      rcases hq with ⟨_, hq90⟩ | rfl
      · omega
      · omega
    · rw [if_neg hprobe]
      rcases bsearch_mem size (C.toNat * 1024) 5 90 5 (by omega) with hm | hm
      · refine ⟨by rw [hm]; exact h5fit, ?_, ?_⟩
        · intro q hq hqfit
          rcases hq with ⟨hq5, hq90⟩ | rfl
          · exact bsearch_max size (C.toNat * 1024) 5 90 5 hmono (by omega) q hq5 hq90 hqfit
          · exact absurd hqfit hprobe
        · left
          rw [hm]
          omega
      · refine ⟨hm.2.2, ?_, Or.inl ⟨hm.1, hm.2.1⟩⟩
        intro q hq hqfit
        rcases hq with ⟨hq5, hq90⟩ | rfl
        · exact bsearch_max size (C.toNat * 1024) 5 90 5 hmono (by omega) q hq5 hq90 hqfit
        · exact absurd hqfit hprobe
  · intro hnofit
    unfold jpegQuality
    have hprobe : ¬ size 95 ≤ C.toNat * 1024 := by
      have := hnofit 95 (by omega)
      omega
    rw [if_neg hprobe]
    rcases bsearch_mem size (C.toNat * 1024) 5 90 5 (by omega) with hm | hm
    · exact hm
    · exfalso
      have := hnofit _ (by omega : 5 ≤ bsearch size (C.toNat * 1024) 5 90 5)
      omega

/-- Witness for C2 at the concrete size map `fun q => q * 100` with a 50 KB ceiling
(achievable at every quality, so the probe at 95 is accepted). -/
theorem claim_C2_jpeg_constrained_witness :
    saveCompressedImage (fun q => q * 100) (fun q => q * 100) (some "JPEG") ".jpg" (some 50)
      = some (SaveAction.jpeg (jpegQuality (fun q => q * 100) ((50 : Int).toNat * 1024))) ∧
    (fun q => q * 100) (jpegQuality (fun q => q * 100) ((50 : Int).toNat * 1024))
      ≤ (50 : Int).toNat * 1024 := by
  have h := claim_C2_jpeg_constrained (fun q => q * 100) (fun q => q * 100) 50
    (fun a b hab => by simpa using Nat.mul_le_mul_right 100 hab) (by omega)
  exact ⟨h.1, (h.2.1 ⟨5, by omega, by decide⟩).1⟩

/-- **C5 counterexample.** The PDF path does *not* run the same
binary-search-over-quality procedure as the JPEG path: for the (monotone) size map
`fun q => q` and target 7 bytes, the JPEG procedure converges to quality 7 (the
highest fitting quality in `[5,90]`), while the PDF procedure, whose search range is
`[10,95]` with fallback 10 and no initial probe, returns quality 10. -/
theorem claim_C5_counterexample :
    pdfQuality (fun q => q) 7 ≠ jpegQuality (fun q => q) 7 ∧
    pdfQuality (fun q => q) 7 = 10 ∧ jpegQuality (fun q => q) 7 = 7 := by
  refine ⟨?_, ?_, ?_⟩ <;> decide

/-- **C5 (amended).** When a size ceiling is set, the PDF path of
`save_compressed_image` runs a *similar* binary search over quality, but not the
same one as the JPEG path: it searches the range `[10,95]` (not `[5,90]`), performs
no initial top-quality probe, and falls back to quality 10 (not 5).  Within that
range the same convergence rule holds: assuming encoded size is monotone in
quality, if the ceiling is achievable at some quality in `[10,95]` the written
artifact fits the ceiling and its quality is the maximum fitting quality in
`[10,95]`; if no quality in `[10,95]` fits, quality 10 is written as best effort. -/
theorem claim_C5_amended (size jsize : Nat → Nat) (C : Int)
    (hmono : Monotone size) (hC : 0 < C) :
    saveCompressedImage jsize size (some "PDF") ".pdf" (some C)
      = some (SaveAction.pdf (pdfQuality size (C.toNat * 1024))) ∧
    ((∃ q, 10 ≤ q ∧ q ≤ 95 ∧ size q ≤ C.toNat * 1024) →
      size (pdfQuality size (C.toNat * 1024)) ≤ C.toNat * 1024 ∧
      (∀ q, 10 ≤ q → q ≤ 95 → size q ≤ C.toNat * 1024 →
        q ≤ pdfQuality size (C.toNat * 1024)) ∧
      10 ≤ pdfQuality size (C.toNat * 1024) ∧ pdfQuality size (C.toNat * 1024) ≤ 95) ∧
    ((∀ q, 10 ≤ q → C.toNat * 1024 < size q) → pdfQuality size (C.toNat * 1024) = 10) := by
  have hnl : noLimit (some C) = false := by
    simp only [noLimit, decide_eq_false_iff_not]
    omega
  have hup : pyUpper "PDF" = "PDF" := by decide
  refine ⟨?_, ?_, ?_⟩
  · simp [saveCompressedImage, resolveFmt, hup, hnl, targetBytes]
  · rintro ⟨q0, hq0a, hq0b, hq0fit⟩
    have h10fit : size 10 ≤ C.toNat * 1024 := le_trans (hmono hq0a) hq0fit
    unfold pdfQuality
    rcases bsearch_mem size (C.toNat * 1024) 10 95 10 (by omega) with hm | hm
    · refine ⟨by rw [hm]; exact h10fit, ?_, by omega, by rw [hm]; omega⟩
      intro q hqa hqb hqfit
      exact bsearch_max size (C.toNat * 1024) 10 95 10 hmono (by omega) q hqa hqb hqfit
    · refine ⟨hm.2.2, ?_, hm.1, hm.2.1⟩
      intro q hqa hqb hqfit
      exact bsearch_max size (C.toNat * 1024) 10 95 10 hmono (by omega) q hqa hqb hqfit
  · intro hnofit
    unfold pdfQuality
    rcases bsearch_mem size (C.toNat * 1024) 10 95 10 (by omega) with hm | hm
    · exact hm
    · exfalso
      have := hnofit _ (by omega : 10 ≤ bsearch size (C.toNat * 1024) 10 95 10)
      omega

/-- Witness for the amended C5 at the size map `fun q => q * 100` with a 2 KB
ceiling: the search over `[10,95]` converges to quality 20 (2048 bytes ÷ 100). -/
theorem claim_C5_amended_witness :
    saveCompressedImage (fun q => q * 100) (fun q => q * 100) (some "PDF") ".pdf" (some 2)
      = some (SaveAction.pdf (pdfQuality (fun q => q * 100) ((2 : Int).toNat * 1024))) ∧
    (fun q => q * 100) (pdfQuality (fun q => q * 100) ((2 : Int).toNat * 1024))
      ≤ (2 : Int).toNat * 1024 ∧
    pdfQuality (fun q => q * 100) ((2 : Int).toNat * 1024) = 20 := by
  have h := claim_C5_amended (fun q => q * 100) (fun q => q * 100) 2
    (fun a b hab => by simpa using Nat.mul_le_mul_right 100 hab) (by omega)
  exact ⟨h.1, (h.2.1 ⟨10, by omega, by omega, by decide⟩).1, by decide⟩

/-- **C10 counterexample.** The empty string is an explicit `output_format` whose
uppercase form `""` is outside `{JPEG, PNG, PDF}`, yet the call is *not* a no-op:
`if output_format:` is false for `''` in Python, so the format falls back to
extension-based inference and a `.jpg` path gets a JPEG written at quality 95. -/
theorem claim_C10_counterexample :
    pyUpper "" ≠ "JPEG" ∧ pyUpper "" ≠ "PNG" ∧ pyUpper "" ≠ "PDF" ∧
    saveCompressedImage (fun q => q) (fun q => q) (some "") ".jpg" none
      = some (SaveAction.jpeg 95) := by
  refine ⟨by decide, by decide, by decide, ?_⟩
  rfl

/-- **C10 (amended).** Calling `save_compressed_image` with an explicit
*non-empty* `output_format` whose uppercase form is outside `{JPEG, PNG, PDF}`
(e.g. `'WEBP'`) is a silent no-op: the explicit format overrides extension-based
inference, no encoding branch matches, and the function falls through and returns
normally without writing anything.  An empty `output_format` is falsy in Python
and is not an override: it behaves exactly like passing no format at all, so the
format is inferred from the extension and a file is written. -/
theorem claim_C10_amended (jsize psize : Nat → Nat) (s ext : String)
    (kb : Option Int) (hne : s ≠ "") (h1 : pyUpper s ≠ "JPEG") (h2 : pyUpper s ≠ "PNG")
    (h3 : pyUpper s ≠ "PDF") :
    saveCompressedImage jsize psize (some s) ext kb = none ∧
    (∀ ext' : String, ∀ kb' : Option Int,
      saveCompressedImage jsize psize (some "") ext' kb'
        = saveCompressedImage jsize psize none ext' kb') := by
  constructor
  · simp [saveCompressedImage, resolveFmt, hne, h1, h2, h3]
  · intro ext' kb'
    unfold saveCompressedImage
    have hres : resolveFmt (some "") ext' = resolveFmt none ext' := by
      simp [resolveFmt]
    rw [hres]

/-- Witness for the amended C10: an explicit `'WEBP'` format writes nothing even
with a `.jpg` extension and a ceiling, while the empty format behaves like no
format. -/
theorem claim_C10_amended_witness :
    saveCompressedImage (fun q => q) (fun q => q) (some "WEBP") ".jpg" (some 100) = none ∧
    saveCompressedImage (fun q => q) (fun q => q) (some "") ".png" (some 100)
      = saveCompressedImage (fun q => q) (fun q => q) none ".png" (some 100) := by
  have h := claim_C10_amended (fun q => q) (fun q => q) "WEBP" ".jpg" (some 100)
    (by decide) (by decide) (by decide) (by decide)
  exact ⟨h.1, h.2 ".png" (some 100)⟩

/-! ## Image model and the content-aware cut search (`slicer.py`)

An image is an explicit pixel grid: `pix x y c` is the value of channel `c` of the
pixel at column `x`, row `y` (PIL coordinates).  `ImageStat.Stat(strip).var` is the
per-band variance `(sum2 - sum^2/n) / n` over the strip's pixels, and
`_is_boundary_solid` sums it over the bands. -/

structure PImage where
  width : Nat
  height : Nat
  channels : Nat
  pix : Nat → Nat → Nat → ℚ

/-- Slice direction (the `axis`/`direction` strings of `slicer.py`). -/
inductive Direction where
  | horizontal
  | vertical
  deriving DecidableEq, Repr

/-- The length of the axis being cut: image height for horizontal cuts (stacked
rows), image width for vertical cuts. -/
def axisLen (img : PImage) : Direction → Nat
  | Direction.horizontal => img.height
  | Direction.vertical => img.width

/-- `ImageStat.Stat(...).var` for a list of samples of one band:
`(sum of squares - (sum)^2 / n) / n`. -/
def listVar (vals : List ℚ) : ℚ :=
  ((vals.map (fun v => v * v)).sum - vals.sum * vals.sum / (vals.length : ℚ))
    / (vals.length : ℚ)

/-- Pixel values of band `c` of the 1-pixel strip perpendicular to the cut axis at
position `pos` (a row for horizontal cuts, a column for vertical cuts). -/
def stripVals (img : PImage) (dir : Direction) (pos c : Nat) : List ℚ :=
  match dir with
  | Direction.horizontal => (List.range img.width).map (fun x => img.pix x pos c)
  | Direction.vertical => (List.range img.height).map (fun y => img.pix pos y c)

/-- `sum(stat.var)`: summed per-band variance of the strip at `pos`. -/
def stripVariance (img : PImage) (dir : Direction) (pos : Nat) : ℚ :=
  ((List.range img.channels).map (fun c => listVar (stripVals img dir pos c))).sum

/-- `slicer._is_boundary_solid`: the solidity score of the strip at `pos`, with
`float('inf')` (here `⊤`) for out-of-range positions. -/
def isBoundarySolid (img : PImage) (pos : Int) (dir : Direction) : WithTop ℚ :=
  if pos < 0 then ⊤
  else if (axisLen img dir : Int) ≤ pos then ⊤
  else ((stripVariance img dir pos.toNat : ℚ) : WithTop ℚ)

/-- The weighted score of candidate position `p` inside `_find_best_cut`:
`variance + |p - target| * 0.1`. -/
def scoreAt (img : PImage) (t : ℚ) (dir : Direction) (p : Int) : WithTop ℚ :=
  isBoundarySolid img p dir + ((|(p : ℚ) - t| * (1 / 10) : ℚ) : WithTop ℚ)

/-- The accumulator loop of `_find_best_cut`: starting from
`(best_pos, min_score) = (target_pos, inf)`, each candidate replaces the best on a
strictly smaller score (so the first minimum, in ascending order, wins ties). -/
def cutFold (f : Int → WithTop ℚ) : List Int → ℚ × WithTop ℚ → ℚ × WithTop ℚ
  | [], acc => acc
  | p :: ps, acc => if f p < acc.2 then cutFold f ps ((p : ℚ), f p) else cutFold f ps acc

/-- `slicer._find_best_cut`: scan `range(max(0, int(t - r)), min(limit - 1, int(t + r)))`
for the position minimising `scoreAt`, returning `int(best_pos)` (the unchanged
`target_pos` if no candidate was ever accepted). -/
def findBestCut (img : PImage) (targetPos : ℚ) (dir : Direction) (searchRange : Int) : Int :=
  let limit : Int := axisLen img dir
  let startP := max 0 (pyint (targetPos - (searchRange : ℚ)))
  let endP := min (limit - 1) (pyint (targetPos + (searchRange : ℚ)))
  pyint (cutFold (scoreAt img targetPos dir) (intRange startP endP) (targetPos, ⊤)).1

/-! ### Invariants of the argmin fold -/

theorem cutFold_min (f : Int → WithTop ℚ) :
    ∀ (l : List Int) (b : ℚ) (m : WithTop ℚ),
      (cutFold f l (b, m)).2 ≤ m ∧ ∀ p ∈ l, (cutFold f l (b, m)).2 ≤ f p := by
  intro l
  induction l with
  | nil => intro b m; exact ⟨le_refl m, by simp⟩
  | cons p ps ih =>
    intro b m
    by_cases hlt : f p < m
    · have heq : cutFold f (p :: ps) (b, m) = cutFold f ps ((p : ℚ), f p) := by
        simp [cutFold, hlt]
      rw [heq]
      rcases ih (p : ℚ) (f p) with ⟨h1, h2⟩
      refine ⟨le_of_lt (lt_of_le_of_lt h1 hlt), ?_⟩
      intro q hq
      rcases List.mem_cons.mp hq with rfl | hq
      · exact h1
      · exact h2 q hq
    · have heq : cutFold f (p :: ps) (b, m) = cutFold f ps (b, m) := by
        simp [cutFold, hlt]
      rw [heq]
      rcases ih b m with ⟨h1, h2⟩
      refine ⟨h1, ?_⟩
      intro q hq
      rcases List.mem_cons.mp hq with rfl | hq
      · exact le_trans h1 (not_lt.mp hlt)
      · exact h2 q hq

theorem cutFold_attain (f : Int → WithTop ℚ) :
    ∀ (l : List Int) (b : ℚ) (m : WithTop ℚ),
      cutFold f l (b, m) = (b, m) ∨
      ∃ p ∈ l, (cutFold f l (b, m)).1 = (p : ℚ) ∧ (cutFold f l (b, m)).2 = f p ∧
        (cutFold f l (b, m)).2 < m := by
  intro l
  induction l with
  | nil => intro b m; left; rfl
  | cons p ps ih =>
    intro b m
    by_cases hlt : f p < m
    · have heq : cutFold f (p :: ps) (b, m) = cutFold f ps ((p : ℚ), f p) := by
        simp [cutFold, hlt]
      rw [heq]
      rcases ih (p : ℚ) (f p) with h | ⟨r, hr, h1, h2, h3⟩
      · right
        exact ⟨p, List.mem_cons_self p ps, by rw [h], by rw [h], by rw [h]; exact hlt⟩
      · right
        exact ⟨r, List.mem_cons_of_mem p hr, h1, h2, lt_trans h3 hlt⟩
    · have heq : cutFold f (p :: ps) (b, m) = cutFold f ps (b, m) := by
        simp [cutFold, hlt]
      rw [heq]
      rcases ih b m with h | ⟨r, hr, h1, h2, h3⟩
      · left; exact h
      · right
        exact ⟨r, List.mem_cons_of_mem p hr, h1, h2, h3⟩

theorem cutFold_tie (f : Int → WithTop ℚ) :
    ∀ (l : List Int) (b : ℚ) (m : WithTop ℚ), l.Pairwise (· < ·) →
      ∀ q ∈ l, f q = (cutFold f l (b, m)).2 →
        ((cutFold f l (b, m)).1 = b ∧ (cutFold f l (b, m)).2 = m) ∨
        ∃ p ∈ l, (cutFold f l (b, m)).1 = (p : ℚ) ∧ p ≤ q := by
  intro l
  induction l with
  | nil => intro b m _ q hq; exact absurd hq (List.not_mem_nil q)
  | cons p ps ih =>
    intro b m hpw q hq heq
    rcases List.pairwise_cons.mp hpw with ⟨hplt, hpw'⟩
    by_cases hlt : f p < m
    · have hstep : cutFold f (p :: ps) (b, m) = cutFold f ps ((p : ℚ), f p) := by
        simp [cutFold, hlt]
      rw [hstep] at heq ⊢
      rcases List.mem_cons.mp hq with rfl | hqps
      · rcases cutFold_attain f ps (q : ℚ) (f q) with h | ⟨r, hr, h1, h2, h3⟩
        · right
          exact ⟨q, List.mem_cons_self q ps, by rw [h], le_refl q⟩
        · exfalso
          rw [← heq] at h3
          exact lt_irrefl _ h3
      · rcases ih (p : ℚ) (f p) hpw' q hqps heq with ⟨h1, h2⟩ | ⟨r, hr, h1, h2⟩
        · right
          exact ⟨p, List.mem_cons_self p ps, h1, le_of_lt (hplt q hqps)⟩
        · right
          exact ⟨r, List.mem_cons_of_mem p hr, h1, h2⟩
    · have hstep : cutFold f (p :: ps) (b, m) = cutFold f ps (b, m) := by
        simp [cutFold, hlt]
      rw [hstep] at heq ⊢
      rcases List.mem_cons.mp hq with rfl | hqps
      · have hle : (cutFold f ps (b, m)).2 ≤ m := (cutFold_min f ps b m).1
        have hm : (cutFold f ps (b, m)).2 = m := by
          have := not_lt.mp hlt
          exact le_antisymm hle (heq ▸ this)
        rcases cutFold_attain f ps b m with h | ⟨r, hr, h1, h2, h3⟩
        · left
          exact ⟨by rw [h], hm⟩
        · exfalso
          rw [hm] at h3
          exact lt_irrefl m h3
      · rcases ih b m hpw' q hqps heq with h | ⟨r, hr, h1, h2⟩
        · left; exact h
        · right
          exact ⟨r, List.mem_cons_of_mem p hr, h1, h2⟩

/-- The candidate positions scanned by `_find_best_cut`:
`range(max(0, int(t - r)), min(limit - 1, int(t + r)))`. -/
def cutCands (img : PImage) (t : ℚ) (dir : Direction) (r : Int) : List Int :=
  intRange (max 0 (pyint (t - (r : ℚ))))
    (min ((axisLen img dir : Int) - 1) (pyint (t + (r : ℚ))))

theorem findBestCut_eq (img : PImage) (t : ℚ) (dir : Direction) (r : Int) :
    findBestCut img t dir r
      = pyint (cutFold (scoreAt img t dir) (cutCands img t dir r) (t, ⊤)).1 := rfl

theorem scoreAt_lt_top (img : PImage) (t : ℚ) (dir : Direction) {p : Int}
    (h0 : 0 ≤ p) (hl : p < (axisLen img dir : Int)) : scoreAt img t dir p < ⊤ := by
  unfold scoreAt isBoundarySolid
  rw [if_neg (by omega), if_neg (by omega)]
  rw [← WithTop.coe_add]
  exact WithTop.coe_lt_top _

theorem cutCands_bounds (img : PImage) (t : ℚ) (dir : Direction) (r : Int) {p : Int}
    (hp : p ∈ cutCands img t dir r) : 0 ≤ p ∧ p < (axisLen img dir : Int) := by
  rcases mem_intRange hp with ⟨h1, h2⟩
  constructor
  · exact le_trans (le_max_left _ _) h1
  · have := min_le_left ((axisLen img dir : Int) - 1) (pyint (t + (r : ℚ)))
    omega

/-- If the candidate range is empty, `_find_best_cut` returns `int(target_pos)`
unchanged. -/
theorem findBestCut_of_empty (img : PImage) (t : ℚ) (dir : Direction) (r : Int)
    (h : cutCands img t dir r = []) : findBestCut img t dir r = pyint t := by
  rw [findBestCut_eq, h]
  rfl

/-- If the candidate range is non-empty, `_find_best_cut` returns a candidate whose
score is minimal among all candidates, and on ties the lowest position. -/
theorem findBestCut_spec (img : PImage) (t : ℚ) (dir : Direction) (r : Int)
    (hne : cutCands img t dir r ≠ []) :
    findBestCut img t dir r ∈ cutCands img t dir r ∧
    (∀ q ∈ cutCands img t dir r,
      scoreAt img t dir (findBestCut img t dir r) ≤ scoreAt img t dir q) ∧
    (∀ q ∈ cutCands img t dir r,
      scoreAt img t dir q = scoreAt img t dir (findBestCut img t dir r) →
        findBestCut img t dir r ≤ q) := by
  obtain ⟨p0, hp0⟩ : ∃ p0, p0 ∈ cutCands img t dir r := by
    cases hl : cutCands img t dir r with
    | nil => exact absurd hl hne
    | cons a l => exact ⟨a, hl ▸ List.mem_cons_self a l⟩
  have hfin : scoreAt img t dir p0 < ⊤ := by
    rcases cutCands_bounds img t dir r hp0 with ⟨h0, hl⟩
    exact scoreAt_lt_top img t dir h0 hl
  have hmin := cutFold_min (scoreAt img t dir) (cutCands img t dir r) t ⊤
  have hlt_top : (cutFold (scoreAt img t dir) (cutCands img t dir r) (t, ⊤)).2 < ⊤ :=
    lt_of_le_of_lt (hmin.2 p0 hp0) hfin
  rcases cutFold_attain (scoreAt img t dir) (cutCands img t dir r) t ⊤ with hat | hat
  · exfalso
    rw [hat] at hlt_top
    exact lt_irrefl _ hlt_top
  · rcases hat with ⟨p, hp, h1, h2, _⟩
    have hres : findBestCut img t dir r = p := by
      rw [findBestCut_eq, h1, pyint_intCast]
    have hscore : scoreAt img t dir (findBestCut img t dir r)
        = (cutFold (scoreAt img t dir) (cutCands img t dir r) (t, ⊤)).2 := by
      rw [hres, h2]
    refine ⟨hres ▸ hp, ?_, ?_⟩
    · intro q hq
      rw [hscore]
      exact hmin.2 q hq
    · intro q hq hqs
      rw [hscore] at hqs
      rcases cutFold_tie (scoreAt img t dir) (cutCands img t dir r) t ⊤
          (intRange_pairwise _ _) q hq hqs with ⟨_, hm⟩ | ⟨p', hp', h1', hle⟩
      · exfalso
        rw [hm] at hlt_top
        exact lt_irrefl _ hlt_top
      · have : (p : ℚ) = (p' : ℚ) := by rw [← h1, h1']
        have hpp : p = p' := by exact_mod_cast this
        rw [hres, hpp]
        exact hle

/-- Wherever `slice_image` calls it (`0 ≤ t < axis length`), `_find_best_cut`
returns an in-bounds position. -/
theorem findBestCut_bounds (img : PImage) (t : ℚ) (dir : Direction) (r : Int)
    (h0 : 0 ≤ t) (hlt : t < (axisLen img dir : ℚ)) :
    0 ≤ findBestCut img t dir r ∧ findBestCut img t dir r < (axisLen img dir : Int) := by
  by_cases hc : cutCands img t dir r = []
  · rw [findBestCut_of_empty img t dir r hc, pyint_of_nonneg h0]
    constructor
    · exact Int.le_floor.mpr (by exact_mod_cast h0)
    · exact Int.floor_lt.mpr (by exact_mod_cast hlt)
  · have hmem := (findBestCut_spec img t dir r hc).1
    exact cutCands_bounds img t dir r hmem

/-! ### Evaluation helpers for concrete runs of the search -/

theorem cutFold_nil (f : Int → WithTop ℚ) (acc : ℚ × WithTop ℚ) : cutFold f [] acc = acc := rfl

theorem cutFold_cons_of_lt {f : Int → WithTop ℚ} {p : Int} {acc : ℚ × WithTop ℚ}
    (l : List Int) (h : f p < acc.2) :
    cutFold f (p :: l) acc = cutFold f l ((p : ℚ), f p) := by
  simp [cutFold, h]

theorem cutFold_cons_of_ge {f : Int → WithTop ℚ} {p : Int} {acc : ℚ × WithTop ℚ}
    (l : List Int) (h : ¬ f p < acc.2) :
    cutFold f (p :: l) acc = cutFold f l acc := by
  simp [cutFold, h]

/-- In-range candidates score `variance + |p - t| * 0.1` (no infinities). -/
theorem scoreAt_eval (img : PImage) (t : ℚ) (dir : Direction) (p : Int)
    (h0 : 0 ≤ p) (hl : p < (axisLen img dir : Int)) :
    scoreAt img t dir p
      = ((stripVariance img dir p.toNat + |(p : ℚ) - t| * (1 / 10) : ℚ) : WithTop ℚ) := by
  unfold scoreAt isBoundarySolid
  rw [if_neg (by omega), if_neg (by omega), ← WithTop.coe_add]

/-- For integer target and radius the scanned range has exact integer endpoints. -/
theorem cutCands_int (img : PImage) (dir : Direction) (t r : Int) :
    cutCands img (t : ℚ) dir r
      = intRange (max 0 (t - r)) (min ((axisLen img dir : Int) - 1) (t + r)) := by
  have h1 : pyint ((t : ℚ) - (r : ℚ)) = t - r := by
    rw [← Int.cast_sub]
    exact pyint_intCast _
  have h2 : pyint ((t : ℚ) + (r : ℚ)) = t + r := by
    rw [← Int.cast_add]
    exact pyint_intCast _
  unfold cutCands
  rw [h1, h2]

/-- A 2×3 single-band image whose rows 0 and 1 are visually busy (pixel values 0 and
100) while the bottom row 2 is uniformly 0 (a perfectly solid boundary). -/
def img3 : PImage := ⟨2, 3, 1, fun x y _ => if y ≤ 1 ∧ x = 1 then 100 else 0⟩

theorem img3_var0 : stripVariance img3 Direction.horizontal 0 = 2500 := by
  norm_num [stripVariance, stripVals, listVar, img3, List.range_succ]

theorem img3_var1 : stripVariance img3 Direction.horizontal 1 = 2500 := by
  norm_num [stripVariance, stripVals, listVar, img3, List.range_succ]

theorem img3_var2 : stripVariance img3 Direction.horizontal 2 = 0 := by
  norm_num [stripVariance, stripVals, listVar, img3, List.range_succ]

theorem img3_cut : findBestCut img3 ((2 : Int) : ℚ) Direction.horizontal 50 = 1 := by
  have hc : cutCands img3 ((2 : Int) : ℚ) Direction.horizontal 50 = [0, 1] := by
    rw [cutCands_int]
    decide
  have hs0 := scoreAt_eval img3 ((2 : Int) : ℚ) Direction.horizontal 0 (by omega) (by decide)
  have hs1 := scoreAt_eval img3 ((2 : Int) : ℚ) Direction.horizontal 1 (by omega) (by decide)
  rw [findBestCut_eq, hc]
  rw [cutFold_cons_of_lt _ (by rw [hs0]; exact WithTop.coe_lt_top _)]
  rw [cutFold_cons_of_lt _ (by
    show scoreAt img3 ((2 : Int) : ℚ) Direction.horizontal 1
      < scoreAt img3 ((2 : Int) : ℚ) Direction.horizontal 0
    rw [hs0, hs1, WithTop.coe_lt_coe]
    simp only [Int.toNat_zero, Int.toNat_one]
    rw [img3_var0, img3_var1]
    norm_num)]
  rw [cutFold_nil]
  exact pyint_intCast 1

/-- **C3 counterexample.** On `img3`, naive target `t = 2` (the solid bottom row)
and radius `r = 50`, the scan `range(max(0, t-50), min(height-1, t+50))` never
evaluates `t` itself: `_find_best_cut` returns position 1, whose score
`2500 + 0.1` is strictly worse than the naive target's own score `0`.  This
refutes "the returned position's solidity-plus-distance score is never worse than
the score of the naive target itself evaluated at `p = t`". -/
theorem claim_C3_counterexample :
    ¬ scoreAt img3 ((2 : Int) : ℚ) Direction.horizontal
        (findBestCut img3 ((2 : Int) : ℚ) Direction.horizontal 50)
      ≤ scoreAt img3 ((2 : Int) : ℚ) Direction.horizontal 2 := by
  rw [img3_cut]
  rw [scoreAt_eval img3 ((2 : Int) : ℚ) Direction.horizontal 1 (by omega) (by decide)]
  rw [scoreAt_eval img3 ((2 : Int) : ℚ) Direction.horizontal 2 (by omega) (by decide)]
  rw [WithTop.coe_le_coe]
  rw [show ((1 : Int).toNat) = 1 from rfl, show ((2 : Int).toNat) = 2 from rfl]
  rw [img3_var1, img3_var2]
  norm_num

/-- **C3 (amended).** For every image, integer naive target `t` in the axis range
and integer radius `r ≥ 0`, `_find_best_cut` returns a position inside `[t-r, t+r]`
clamped to the image bounds; and *whenever the naive target is itself among the
scanned candidates* (`max(0, t-r) ≤ t < min(limit-1, t+r)` — the scan is
half-open at the top, so positions at or beyond `min(limit-1, t+r)` are never
evaluated), the returned position's score is no worse than the naive target's own
score. -/
theorem claim_C3_amended (img : PImage) (dir : Direction) (t r : Int) (hr : 0 ≤ r)
    (h0 : 0 ≤ t) (hlt : t < (axisLen img dir : Int)) :
    (t - r ≤ findBestCut img (t : ℚ) dir r ∧ findBestCut img (t : ℚ) dir r ≤ t + r ∧
      0 ≤ findBestCut img (t : ℚ) dir r ∧
      findBestCut img (t : ℚ) dir r < (axisLen img dir : Int)) ∧
    (max 0 (t - r) ≤ t → t < min ((axisLen img dir : Int) - 1) (t + r) →
      scoreAt img (t : ℚ) dir (findBestCut img (t : ℚ) dir r)
        ≤ scoreAt img (t : ℚ) dir t) := by
  have hcands := cutCands_int img dir t r
  constructor
  · by_cases hc : cutCands img (t : ℚ) dir r = []
    · rw [findBestCut_of_empty img (t : ℚ) dir r hc, pyint_intCast]
      omega
    · have hmem := (findBestCut_spec img (t : ℚ) dir r hc).1
      rw [hcands] at hmem
      rcases mem_intRange hmem with ⟨h1, h2⟩
      have ha : t - r ≤ max 0 (t - r) := le_max_right 0 (t - r)
      have hb : min ((axisLen img dir : Int) - 1) (t + r) ≤ t + r := min_le_right _ _
      have hcℓ : min ((axisLen img dir : Int) - 1) (t + r) ≤ (axisLen img dir : Int) - 1 :=
        min_le_left _ _
      have hd : (0 : Int) ≤ max 0 (t - r) := le_max_left 0 (t - r)
      omega
  · intro ht1 ht2
    have htc : t ∈ cutCands img (t : ℚ) dir r := by
      rw [hcands]
      exact intRange_mem_of ht1 ht2
    have hne : cutCands img (t : ℚ) dir r ≠ [] := List.ne_nil_of_mem htc
    exact (findBestCut_spec img (t : ℚ) dir r hne).2.1 t htc

/-- Witness for the amended C3: an all-zero 1×3 image, `t = 1`, `r = 50`; the
target is among the candidates, and the returned cut is in bounds with a score no
worse than the target's. -/
def imgFlat : PImage := ⟨1, 3, 1, fun _ _ _ => 0⟩

theorem claim_C3_amended_witness :
    (0 ≤ findBestCut imgFlat ((1 : Int) : ℚ) Direction.horizontal 50 ∧
      findBestCut imgFlat ((1 : Int) : ℚ) Direction.horizontal 50
        < (axisLen imgFlat Direction.horizontal : Int)) ∧
    scoreAt imgFlat ((1 : Int) : ℚ) Direction.horizontal
        (findBestCut imgFlat ((1 : Int) : ℚ) Direction.horizontal 50)
      ≤ scoreAt imgFlat ((1 : Int) : ℚ) Direction.horizontal 1 := by
  have h := claim_C3_amended imgFlat Direction.horizontal 1 50 (by omega) (by omega)
    (by decide)
  exact ⟨⟨h.1.2.2.1, h.1.2.2.2⟩, h.2 (by decide) (by decide)⟩

/-- The search radius `slice_image` passes to `_find_best_cut` in smart mode:
`max(50, int(approx_length * 0.4))`. -/
def smartRange (approx : ℚ) : Int := max 50 (pyint (approx * (2 / 5)))

/-- The content-aware selection rule exactly as claim C4 words it: radius
`r = max(50, 0.4 * approx)` (no integer truncation), candidates all integer
positions of the window `[t - r, t + r]` clamped to the image bounds (top end
included), minimum combined score, lowest position on ties. -/
def findBestCutClaimed (img : PImage) (t approx : ℚ) (dir : Direction) : Int :=
  pyint (cutFold (scoreAt img t dir)
    (intRange (max 0 ⌈t - max 50 (approx * (2 / 5))⌉)
      (min ((axisLen img dir : Int) - 1) ⌊t + max 50 (approx * (2 / 5))⌋ + 1))
    (t, ⊤)).1

/-- A 2×4 single-band image: rows 0–2 busy (values 0 and 100), bottom row 3
uniformly 0. -/
def img4 : PImage := ⟨2, 4, 1, fun x y _ => if y ≤ 2 ∧ x = 1 then 100 else 0⟩

theorem img4_var0 : stripVariance img4 Direction.horizontal 0 = 2500 := by
  norm_num [stripVariance, stripVals, listVar, img4, List.range_succ]

theorem img4_var1 : stripVariance img4 Direction.horizontal 1 = 2500 := by
  norm_num [stripVariance, stripVals, listVar, img4, List.range_succ]

theorem img4_var2 : stripVariance img4 Direction.horizontal 2 = 2500 := by
  norm_num [stripVariance, stripVals, listVar, img4, List.range_succ]

theorem img4_var3 : stripVariance img4 Direction.horizontal 3 = 0 := by
  norm_num [stripVariance, stripVals, listVar, img4, List.range_succ]

theorem smartRange_two : smartRange ((2 : Int) : ℚ) = 50 := by
  unfold smartRange
  have h1 : ((2 : Int) : ℚ) * (2 / 5) = 4 / 5 := by push_cast; norm_num
  have h2 : pyint ((4 : ℚ) / 5) = 0 := by
    rw [pyint_of_nonneg (by norm_num)]
    rw [Int.floor_eq_zero_iff]
    rw [Set.mem_Ico]
    norm_num
  rw [h1, h2]
  decide

theorem img4_code_cut :
    findBestCut img4 ((2 : Int) : ℚ) Direction.horizontal 50 = 2 := by
  have hc : cutCands img4 ((2 : Int) : ℚ) Direction.horizontal 50 = [0, 1, 2] := by
    rw [cutCands_int]
    decide
  have hs0 := scoreAt_eval img4 ((2 : Int) : ℚ) Direction.horizontal 0 (by omega) (by decide)
  have hs1 := scoreAt_eval img4 ((2 : Int) : ℚ) Direction.horizontal 1 (by omega) (by decide)
  have hs2 := scoreAt_eval img4 ((2 : Int) : ℚ) Direction.horizontal 2 (by omega) (by decide)
  rw [findBestCut_eq, hc]
  rw [cutFold_cons_of_lt _ (by rw [hs0]; exact WithTop.coe_lt_top _)]
  rw [cutFold_cons_of_lt _ (by
    show scoreAt img4 ((2 : Int) : ℚ) Direction.horizontal 1
      < scoreAt img4 ((2 : Int) : ℚ) Direction.horizontal 0
    rw [hs0, hs1, WithTop.coe_lt_coe]
    rw [show ((0 : Int).toNat) = 0 from rfl, show ((1 : Int).toNat) = 1 from rfl]
    rw [img4_var0, img4_var1]
    norm_num)]
  rw [cutFold_cons_of_lt _ (by
    show scoreAt img4 ((2 : Int) : ℚ) Direction.horizontal 2
      < scoreAt img4 ((2 : Int) : ℚ) Direction.horizontal 1
    rw [hs1, hs2, WithTop.coe_lt_coe]
    rw [show ((1 : Int).toNat) = 1 from rfl, show ((2 : Int).toNat) = 2 from rfl]
    rw [img4_var1, img4_var2]
    norm_num)]
  rw [cutFold_nil]
  exact pyint_intCast 2

theorem img4_claimed_cut :
    findBestCutClaimed img4 ((2 : Int) : ℚ) ((2 : Int) : ℚ) Direction.horizontal = 3 := by
  unfold findBestCutClaimed
  have hr : max (50 : ℚ) (((2 : Int) : ℚ) * (2 / 5)) = 50 := by
    rw [max_eq_left]
    push_cast
    norm_num
  rw [hr]
  have hlo : max (0 : Int) ⌈((2 : Int) : ℚ) - (50 : ℚ)⌉ = 0 := by
    have h : ((2 : Int) : ℚ) - (50 : ℚ) = ((-48 : Int) : ℚ) := by push_cast; ring
    rw [h, Int.ceil_intCast]
    decide
  have hhi : min ((axisLen img4 Direction.horizontal : Int) - 1) ⌊((2 : Int) : ℚ) + (50 : ℚ)⌋ = 3 := by
    have h : ((2 : Int) : ℚ) + (50 : ℚ) = ((52 : Int) : ℚ) := by push_cast; ring
    rw [h, Int.floor_intCast]
    decide
  rw [hlo, hhi]
  have hcl : intRange 0 (3 + 1) = [0, 1, 2, 3] := by decide
  rw [hcl]
  have hs0 := scoreAt_eval img4 ((2 : Int) : ℚ) Direction.horizontal 0 (by omega) (by decide)
  have hs1 := scoreAt_eval img4 ((2 : Int) : ℚ) Direction.horizontal 1 (by omega) (by decide)
  have hs2 := scoreAt_eval img4 ((2 : Int) : ℚ) Direction.horizontal 2 (by omega) (by decide)
  have hs3 := scoreAt_eval img4 ((2 : Int) : ℚ) Direction.horizontal 3 (by omega) (by decide)
  rw [cutFold_cons_of_lt _ (by rw [hs0]; exact WithTop.coe_lt_top _)]
  rw [cutFold_cons_of_lt _ (by
    show scoreAt img4 ((2 : Int) : ℚ) Direction.horizontal 1
      < scoreAt img4 ((2 : Int) : ℚ) Direction.horizontal 0
    rw [hs0, hs1, WithTop.coe_lt_coe]
    rw [show ((0 : Int).toNat) = 0 from rfl, show ((1 : Int).toNat) = 1 from rfl]
    rw [img4_var0, img4_var1]
    norm_num)]
  rw [cutFold_cons_of_lt _ (by
    show scoreAt img4 ((2 : Int) : ℚ) Direction.horizontal 2
      < scoreAt img4 ((2 : Int) : ℚ) Direction.horizontal 1
    rw [hs1, hs2, WithTop.coe_lt_coe]
    rw [show ((1 : Int).toNat) = 1 from rfl, show ((2 : Int).toNat) = 2 from rfl]
    rw [img4_var1, img4_var2]
    norm_num)]
  rw [cutFold_cons_of_lt _ (by
    show scoreAt img4 ((2 : Int) : ℚ) Direction.horizontal 3
      < scoreAt img4 ((2 : Int) : ℚ) Direction.horizontal 2
    rw [hs2, hs3, WithTop.coe_lt_coe]
    rw [show ((2 : Int).toNat) = 2 from rfl, show ((3 : Int).toNat) = 3 from rfl]
    rw [img4_var2, img4_var3]
    norm_num)]
  rw [cutFold_nil]
  exact pyint_intCast 3

/-- **C4 counterexample.** On `img4` with `approx = 2` and naive target `t = 2`
(exactly the call `slice_image` makes when slicing a 4-row image in two), the code
returns position 2, while the selection rule asserted by the claim — radius
`max(50, 0.4*approx)` and *every* integer position of the clamped window
`[t-r, t+r]` as candidate — selects position 3 (the solid bottom row): the code's
scan `range(start, min(limit-1, t+r))` is half-open and never evaluates the top
window position. -/
theorem claim_C4_counterexample :
    findBestCut img4 ((2 : Int) : ℚ) Direction.horizontal (smartRange ((2 : Int) : ℚ))
      ≠ findBestCutClaimed img4 ((2 : Int) : ℚ) ((2 : Int) : ℚ) Direction.horizontal := by
  rw [smartRange_two, img4_code_cut, img4_claimed_cut]
  decide

/-- **C4 (amended).** In smart mode the search radius is
`r = max(50, int(0.4 * approx))` (integer-truncated) and the candidates are the
integer positions `max(0, int(t-r)) ≤ p < min(limit-1, int(t+r))` — a half-open
scan whose top window position is never evaluated.  Among those candidates the
search selects minimal `score(p) = variance(p) + 0.1*|p-t|`, ties broken by the
lowest position; with no candidates it returns `int(t)` unchanged. -/
theorem claim_C4_amended (img : PImage) (t approx : ℚ) (dir : Direction) :
    (cutCands img t dir (smartRange approx) = [] →
      findBestCut img t dir (smartRange approx) = pyint t) ∧
    (cutCands img t dir (smartRange approx) ≠ [] →
      findBestCut img t dir (smartRange approx) ∈ cutCands img t dir (smartRange approx) ∧
      (∀ q ∈ cutCands img t dir (smartRange approx),
        scoreAt img t dir (findBestCut img t dir (smartRange approx)) ≤ scoreAt img t dir q) ∧
      (∀ q ∈ cutCands img t dir (smartRange approx),
        scoreAt img t dir q = scoreAt img t dir (findBestCut img t dir (smartRange approx)) →
          findBestCut img t dir (smartRange approx) ≤ q)) :=
  ⟨findBestCut_of_empty img t dir _, findBestCut_spec img t dir _⟩

/-- Witness for the amended C4 on `img4`: the candidate list is non-empty and the
returned cut (position 2) is one of the candidates. -/
theorem claim_C4_amended_witness :
    cutCands img4 ((2 : Int) : ℚ) Direction.horizontal (smartRange ((2 : Int) : ℚ)) ≠ [] ∧
    findBestCut img4 ((2 : Int) : ℚ) Direction.horizontal (smartRange ((2 : Int) : ℚ))
      ∈ cutCands img4 ((2 : Int) : ℚ) Direction.horizontal (smartRange ((2 : Int) : ℚ)) := by
  have hne : cutCands img4 ((2 : Int) : ℚ) Direction.horizontal (smartRange ((2 : Int) : ℚ)) ≠ [] := by
    rw [smartRange_two, cutCands_int]
    decide
  exact ⟨hne, ((claim_C4_amended img4 ((2 : Int) : ℚ) ((2 : Int) : ℚ) Direction.horizontal).2 hne).1⟩

/-! ## Linear slicing (`slicer.slice_image`)

Cut-point geometry of `slice_image` after the optional resize: `cut_points = [0]`,
then for each interior boundary the naive or content-aware position, then the total
axis length; the list is sorted and deduplicated (`sorted(list(set(...)))`) and
consecutive pairs with positive extent are cropped. -/

/-- The raw cut-point list built by the loop of `slice_image`. -/
def sliceCutPointsRaw (img : PImage) (count : Nat) (smart : Bool) (dir : Direction) :
    List Int :=
  (0 : Int) ::
    ((List.range (count - 1)).map (fun j =>
      if smart then
        findBestCut img (((j + 1 : Nat) : ℚ) * ((axisLen img dir : ℚ) / (count : ℚ))) dir
          (smartRange ((axisLen img dir : ℚ) / (count : ℚ)))
      else
        pyint (((j + 1 : Nat) : ℚ) * ((axisLen img dir : ℚ) / (count : ℚ))))
    ++ [(axisLen img dir : Int)])

/-- Python `sorted(list(set(xs)))`: the distinct values in ascending order. -/
def sortedDedup (xs : List Int) : List Int := List.insertionSort (· ≤ ·) xs.dedup

/-- The deduplicated, sorted cut points of `slice_image`. -/
def sliceCutPoints (img : PImage) (count : Nat) (smart : Bool) (dir : Direction) :
    List Int :=
  sortedDedup (sliceCutPointsRaw img count smart dir)

/-- Consecutive pairs of a list: the `(start, end)` pairs the cropping loop visits. -/
def adjPairs (l : List Int) : List (Int × Int) := l.zip l.tail

/-- The segments `slice_image` actually crops: consecutive cut-point pairs of
positive extent (`if end <= start: continue`). -/
def sliceSegments (img : PImage) (count : Nat) (smart : Bool) (dir : Direction) :
    List (Int × Int) :=
  (adjPairs (sliceCutPoints img count smart dir)).filter (fun s => s.1 < s.2)

/-! ### Properties of `sortedDedup` -/

theorem sortedDedup_perm (xs : List Int) : List.Perm (sortedDedup xs) xs.dedup :=
  List.perm_insertionSort (· ≤ ·) xs.dedup

theorem sortedDedup_mem (xs : List Int) (a : Int) : a ∈ sortedDedup xs ↔ a ∈ xs := by
  rw [(sortedDedup_perm xs).mem_iff]
  exact List.mem_dedup

theorem sortedDedup_nodup (xs : List Int) : (sortedDedup xs).Nodup :=
  (sortedDedup_perm xs).symm.nodup (List.nodup_dedup xs)

theorem sortedDedup_sorted_le (xs : List Int) : (sortedDedup xs).Sorted (· ≤ ·) :=
  List.sorted_insertionSort (· ≤ ·) xs.dedup

theorem sortedDedup_pairwise_lt (xs : List Int) : (sortedDedup xs).Pairwise (· < ·) := by
  have h := (sortedDedup_sorted_le xs).and (sortedDedup_nodup xs)
  exact h.imp (fun hab => lt_of_le_of_ne hab.1 hab.2)

theorem sortedDedup_length_le (xs : List Int) : (sortedDedup xs).length ≤ xs.length := by
  rw [(sortedDedup_perm xs).length_eq]
  exact (List.dedup_sublist xs).length_le

theorem sortedDedup_length_of_nodup (xs : List Int) (h : xs.Nodup) :
    (sortedDedup xs).length = xs.length := by
  rw [(sortedDedup_perm xs).length_eq, List.dedup_eq_self.mpr h]

/-! ### Properties of consecutive-pair segments -/

theorem adjPairs_nil : adjPairs [] = [] := rfl

theorem adjPairs_single (a : Int) : adjPairs [a] = [] := rfl

theorem adjPairs_cons₂ (a b : Int) (t : List Int) :
    adjPairs (a :: b :: t) = (a, b) :: adjPairs (b :: t) := rfl

theorem adjPairs_length (l : List Int) : (adjPairs l).length = l.length - 1 := by
  unfold adjPairs
  rw [List.length_zip, List.length_tail]
  omega

theorem adjPairs_chain : ∀ l : List Int, (adjPairs l).Chain' (fun s t => s.2 = t.1)
  | [] => List.chain'_nil
  | [_] => List.chain'_nil
  | a :: b :: t => by
    rw [adjPairs_cons₂]
    cases t with
    | nil => exact List.chain'_singleton _
    | cons c t' =>
      rw [adjPairs_cons₂]
      exact List.chain'_cons.mpr ⟨rfl, by rw [← adjPairs_cons₂]; exact adjPairs_chain (b :: c :: t')⟩

theorem adjPairs_fst_mem : ∀ (l : List Int) (s : Int × Int), s ∈ adjPairs l → s.1 ∈ l := by
  intro l s hs
  unfold adjPairs at hs
  have := List.of_mem_zip hs
  exact this.1

theorem adjPairs_pos : ∀ l : List Int, l.Pairwise (· < ·) →
    ∀ s ∈ adjPairs l, s.1 < s.2
  | [] => by intro _ s hs; exact absurd hs (List.not_mem_nil s)
  | [a] => by intro _ s hs; exact absurd hs (List.not_mem_nil s)
  | a :: b :: t => by
    intro hpw s hs
    rw [adjPairs_cons₂] at hs
    rcases List.mem_cons.mp hs with rfl | hs
    · exact (List.pairwise_cons.mp hpw).1 b (List.mem_cons_self b t)
    · exact adjPairs_pos (b :: t) (List.pairwise_cons.mp hpw).2 s hs

theorem adjPairs_pairwise : ∀ l : List Int, l.Pairwise (· < ·) →
    (adjPairs l).Pairwise (fun s t => s.2 ≤ t.1)
  | [] => by intro _; exact List.Pairwise.nil
  | [a] => by intro _; exact List.Pairwise.nil
  | a :: b :: t => by
    intro hpw
    rw [adjPairs_cons₂]
    refine List.Pairwise.cons ?_ (adjPairs_pairwise (b :: t) (List.pairwise_cons.mp hpw).2)
    intro u hu
    have hu1 : u.1 ∈ b :: t := adjPairs_fst_mem (b :: t) u hu
    rcases List.mem_cons.mp hu1 with h | h
    · exact le_of_eq (by rw [h])
    · exact le_of_lt ((List.pairwise_cons.mp (List.pairwise_cons.mp hpw).2).1 u.1 h)

theorem adjPairs_head (a b : Int) (t : List Int) :
    (adjPairs (a :: b :: t)).head? = some (a, b) := rfl

theorem adjPairs_getLast : ∀ (a b : Int) (t : List Int),
    ((adjPairs (a :: b :: t)).getLast?).map Prod.snd = (b :: t).getLast?
  | a, b, [] => rfl
  | a, b, c :: t' => by
    rw [adjPairs_cons₂, adjPairs_cons₂, List.getLast?_cons_cons]
    rw [← adjPairs_cons₂, adjPairs_getLast b c t']
    rw [List.getLast?_cons_cons]

theorem adjPairs_telescope : ∀ (a : Int) (t : List Int),
    ((adjPairs (a :: t)).map (fun s => s.2 - s.1)).sum
      = (a :: t).getLast (List.cons_ne_nil a t) - a
  | a, [] => by simp [adjPairs_single]
  | a, b :: t' => by
    rw [adjPairs_cons₂, List.map_cons, List.sum_cons, adjPairs_telescope b t']
    rw [List.getLast_cons (List.cons_ne_nil b t')]
    ring

/-- A sorted list's head is a lower bound for its members. -/
theorem sorted_head_le (l : List Int) (hs : l.Pairwise (· ≤ ·)) (x : Int) (hx : x ∈ l)
    (h : Int) (hh : l.head? = some h) : h ≤ x := by
  cases l with
  | nil => exact absurd hx (List.not_mem_nil x)
  | cons a t =>
    have ha : h = a := by
      have := hh
      simp only [List.head?_cons, Option.some.injEq] at this
      exact this.symm
    subst ha
    rcases List.mem_cons.mp hx with rfl | hx
    · exact le_refl x
    · exact (List.pairwise_cons.mp hs).1 x hx

/-- A sorted list's last element is an upper bound for its members. -/
theorem sorted_le_getLast : ∀ (l : List Int), l.Pairwise (· ≤ ·) →
    ∀ x ∈ l, ∀ g, l.getLast? = some g → x ≤ g
  | [] => by intro _ x hx; exact absurd hx (List.not_mem_nil x)
  | [a] => by
    intro _ x hx g hg
    have hxa : x = a := by simpa using hx
    have hga : a = g := by simpa using hg
    omega
  | a :: b :: t => by
    intro hs x hx g hg
    rw [List.getLast?_cons_cons] at hg
    rcases List.mem_cons.mp hx with rfl | hx
    · have hgmem : g ∈ b :: t := List.mem_of_mem_getLast? hg
      exact (List.pairwise_cons.mp hs).1 g hgmem
    · exact sorted_le_getLast (b :: t) (List.pairwise_cons.mp hs).2 x hx g hg

/-! ### Cut-point arithmetic -/

/-- `int(a/b)` on a nonnegative float quotient is natural-number division. -/
theorem floor_natCast_div (a b : Nat) : ⌊((a : ℚ) / (b : ℚ))⌋ = ((a / b : Nat) : Int) := by
  rcases Nat.eq_zero_or_pos b with rfl | hb
  · simp
  · have hb' : (0 : ℚ) < (b : ℚ) := by exact_mod_cast hb
    rw [Int.floor_eq_iff]
    constructor
    · rw [le_div_iff₀ hb']
      exact_mod_cast Nat.div_mul_le_self a b
    · rw [div_lt_iff₀ hb']
      push_cast
      exact_mod_cast (Nat.div_lt_iff_lt_mul hb).mp (Nat.lt_succ_self (a / b))

/-- In naive mode the interior cut points are exactly `⌊(j+1)·L/count⌋` as natural
division. -/
theorem sliceCutPointsRaw_naive (img : PImage) (count : Nat) (dir : Direction) :
    sliceCutPointsRaw img count false dir
      = (0 : Int) ::
          (((List.range (count - 1)).map
            (fun j => (((j + 1) * axisLen img dir / count : Nat) : Int)))
          ++ [(axisLen img dir : Int)]) := by
  unfold sliceCutPointsRaw
  congr 2
  refine List.map_congr_left ?_
  intro j _
  rw [if_neg (by simp)]
  have h1 : ((j + 1 : Nat) : ℚ) * ((axisLen img dir : ℚ) / (count : ℚ))
      = (((j + 1) * axisLen img dir : Nat) : ℚ) / ((count : ℚ)) := by
    push_cast
    ring
  rw [h1, pyint_of_nonneg (by positivity), floor_natCast_div]

/-- Every naive or smart interior target lies strictly inside the axis. -/
theorem slice_target_bounds (img : PImage) (count : Nat) (dir : Direction) (j : Nat)
    (hc : 1 ≤ count) (hL : 1 ≤ axisLen img dir) (hj : j < count - 1) :
    (0 : ℚ) ≤ ((j + 1 : Nat) : ℚ) * ((axisLen img dir : ℚ) / (count : ℚ)) ∧
    ((j + 1 : Nat) : ℚ) * ((axisLen img dir : ℚ) / (count : ℚ)) < (axisLen img dir : ℚ) := by
  have hcq : (0 : ℚ) < (count : ℚ) := by exact_mod_cast hc
  have hLq : (0 : ℚ) < (axisLen img dir : ℚ) := by exact_mod_cast hL
  constructor
  · positivity
  · rw [show ((j + 1 : Nat) : ℚ) * ((axisLen img dir : ℚ) / (count : ℚ))
        = (((j + 1) * axisLen img dir : Nat) : ℚ) / (count : ℚ) from by push_cast; ring]
    rw [div_lt_iff₀ hcq]
    have : (j + 1) * axisLen img dir < axisLen img dir * count := by
      have h1 : j + 1 < count := by omega
      calc (j + 1) * axisLen img dir < count * axisLen img dir :=
            Nat.mul_lt_mul_of_lt_of_le h1 (le_refl _) (by omega)
        _ = axisLen img dir * count := Nat.mul_comm _ _
    exact_mod_cast this

/-- All raw cut points lie in `[0, L]`. -/
theorem sliceCutPointsRaw_bounds (img : PImage) (count : Nat) (smart : Bool)
    (dir : Direction) (hc : 1 ≤ count) (hL : 1 ≤ axisLen img dir) :
    ∀ x ∈ sliceCutPointsRaw img count smart dir,
      0 ≤ x ∧ x ≤ (axisLen img dir : Int) := by
  intro x hx
  unfold sliceCutPointsRaw at hx
  rcases List.mem_cons.mp hx with rfl | hx
  · constructor <;> omega
  · rcases List.mem_append.mp hx with hx | hx
    · rcases List.mem_map.mp hx with ⟨j, hj, rfl⟩
      have hjlt : j < count - 1 := List.mem_range.mp hj
      rcases slice_target_bounds img count dir j hc hL hjlt with ⟨ht0, htL⟩
      by_cases hs : smart
      · rw [if_pos hs]
        have := findBestCut_bounds img _ dir (smartRange ((axisLen img dir : ℚ) / (count : ℚ)))
          ht0 htL
        exact ⟨this.1, le_of_lt this.2⟩
      · rw [if_neg hs]
        rw [pyint_of_nonneg ht0]
        constructor
        · exact Int.le_floor.mpr (by exact_mod_cast ht0)
        · exact le_of_lt (Int.floor_lt.mpr (by exact_mod_cast htL))
    · have hxL : x = (axisLen img dir : Int) := by simpa using hx
      rw [hxL]
      constructor <;> omega

theorem sliceCutPointsRaw_length (img : PImage) (count : Nat) (smart : Bool)
    (dir : Direction) (hc : 1 ≤ count) :
    (sliceCutPointsRaw img count smart dir).length = count + 1 := by
  unfold sliceCutPointsRaw
  simp
  omega

theorem sliceCutPointsRaw_zero_mem (img : PImage) (count : Nat) (smart : Bool)
    (dir : Direction) : (0 : Int) ∈ sliceCutPointsRaw img count smart dir :=
  List.mem_cons_self _ _

theorem sliceCutPointsRaw_len_mem (img : PImage) (count : Nat) (smart : Bool)
    (dir : Direction) :
    (axisLen img dir : Int) ∈ sliceCutPointsRaw img count smart dir := by
  unfold sliceCutPointsRaw
  refine List.mem_cons_of_mem _ (List.mem_append_right _ ?_)
  exact List.mem_singleton.mpr rfl

theorem two_le_length_of_two_mem {l : List Int} {a b : Int} (ha : a ∈ l) (hb : b ∈ l)
    (hne : a ≠ b) : 2 ≤ l.length := by
  cases l with
  | nil => exact absurd ha (List.not_mem_nil a)
  | cons x t =>
    cases t with
    | nil =>
      have ha' : a = x := by simpa using ha
      have hb' : b = x := by simpa using hb
      exact absurd (ha'.trans hb'.symm) hne
    | cons y t' => simp

theorem sliceCutPoints_pairwise (img : PImage) (count : Nat) (smart : Bool)
    (dir : Direction) : (sliceCutPoints img count smart dir).Pairwise (· < ·) :=
  sortedDedup_pairwise_lt _

theorem sliceCutPoints_mem (img : PImage) (count : Nat) (smart : Bool) (dir : Direction)
    (a : Int) :
    a ∈ sliceCutPoints img count smart dir ↔ a ∈ sliceCutPointsRaw img count smart dir :=
  sortedDedup_mem _ a

theorem sliceCutPoints_length_le (img : PImage) (count : Nat) (smart : Bool)
    (dir : Direction) (hc : 1 ≤ count) :
    (sliceCutPoints img count smart dir).length ≤ count + 1 := by
  have h := sortedDedup_length_le (sliceCutPointsRaw img count smart dir)
  rw [sliceCutPointsRaw_length img count smart dir hc] at h
  exact h

theorem sliceCutPoints_two_le (img : PImage) (count : Nat) (smart : Bool)
    (dir : Direction) (hL : 1 ≤ axisLen img dir) :
    2 ≤ (sliceCutPoints img count smart dir).length := by
  have h0 : (0 : Int) ∈ sliceCutPoints img count smart dir :=
    (sliceCutPoints_mem img count smart dir 0).mpr (sliceCutPointsRaw_zero_mem img count smart dir)
  have hL' : (axisLen img dir : Int) ∈ sliceCutPoints img count smart dir :=
    (sliceCutPoints_mem img count smart dir _).mpr (sliceCutPointsRaw_len_mem img count smart dir)
  exact two_le_length_of_two_mem h0 hL' (by omega)

theorem sliceCutPoints_head (img : PImage) (count : Nat) (smart : Bool) (dir : Direction)
    (hc : 1 ≤ count) (hL : 1 ≤ axisLen img dir) :
    (sliceCutPoints img count smart dir).head? = some 0 := by
  have h0 : (0 : Int) ∈ sliceCutPoints img count smart dir :=
    (sliceCutPoints_mem img count smart dir 0).mpr (sliceCutPointsRaw_zero_mem img count smart dir)
  cases hcp : sliceCutPoints img count smart dir with
  | nil => rw [hcp] at h0; exact absurd h0 (List.not_mem_nil 0)
  | cons a t =>
    have hsorted : (a :: t).Pairwise (· ≤ ·) := by
      have := sliceCutPoints_pairwise img count smart dir
      rw [hcp] at this
      exact this.imp le_of_lt
    have hle : a ≤ 0 := by
      refine sorted_head_le (a :: t) hsorted 0 (by rw [← hcp]; exact h0) a rfl
    have hge : 0 ≤ a := by
      have hmem : a ∈ sliceCutPoints img count smart dir := by
        rw [hcp]; exact List.mem_cons_self a t
      have := sliceCutPointsRaw_bounds img count smart dir hc hL a
        ((sliceCutPoints_mem img count smart dir a).mp hmem)
      exact this.1
    have : a = 0 := le_antisymm hle hge
    rw [this]
    rfl

theorem sliceCutPoints_getLast (img : PImage) (count : Nat) (smart : Bool)
    (dir : Direction) (hc : 1 ≤ count) (hL : 1 ≤ axisLen img dir) :
    (sliceCutPoints img count smart dir).getLast? = some (axisLen img dir : Int) := by
  have hLmem : (axisLen img dir : Int) ∈ sliceCutPoints img count smart dir :=
    (sliceCutPoints_mem img count smart dir _).mpr (sliceCutPointsRaw_len_mem img count smart dir)
  cases hcp : sliceCutPoints img count smart dir with
  | nil => rw [hcp] at hLmem; exact absurd hLmem (List.not_mem_nil _)
  | cons a t =>
    obtain ⟨g, hg⟩ : ∃ g, (a :: t).getLast? = some g :=
      ⟨(a :: t).getLast (List.cons_ne_nil a t), List.getLast?_eq_getLast _ _⟩
    have hsorted : (a :: t).Pairwise (· ≤ ·) := by
      have := sliceCutPoints_pairwise img count smart dir
      rw [hcp] at this
      exact this.imp le_of_lt
    have hge : (axisLen img dir : Int) ≤ g :=
      sorted_le_getLast (a :: t) hsorted _ (by rw [← hcp]; exact hLmem) g hg
    have hle : g ≤ (axisLen img dir : Int) := by
      have hgmem : g ∈ sliceCutPoints img count smart dir := by
        rw [hcp]
        exact List.mem_of_mem_getLast? hg
      exact (sliceCutPointsRaw_bounds img count smart dir hc hL g
        ((sliceCutPoints_mem img count smart dir g).mp hgmem)).2
    rw [hg, le_antisymm hle hge]

/-- Since the deduplicated cut points are strictly increasing, the `end <= start`
skip in the cropping loop never fires: the cropped segments are exactly the
consecutive cut-point pairs. -/
theorem sliceSegments_eq (img : PImage) (count : Nat) (smart : Bool) (dir : Direction) :
    sliceSegments img count smart dir = adjPairs (sliceCutPoints img count smart dir) := by
  unfold sliceSegments
  refine List.filter_eq_self.mpr ?_
  intro s hs
  exact decide_eq_true (adjPairs_pos _ (sliceCutPoints_pairwise img count smart dir) s hs)

theorem nat_div_add_div_le (a b c : Nat) : a / c + b / c ≤ (a + b) / c := by
  rcases Nat.eq_zero_or_pos c with rfl | hcpos
  · simp
  · rw [Nat.le_div_iff_mul_le hcpos, Nat.add_mul]
    exact Nat.add_le_add (Nat.div_mul_le_self a c) (Nat.div_mul_le_self b c)

/-- With `count ≤ L` the naive cut points are strictly increasing, hence distinct. -/
theorem sliceCutPointsRaw_naive_nodup (img : PImage) (count : Nat) (dir : Direction)
    (hc : 1 ≤ count) (hcL : count ≤ axisLen img dir) :
    (sliceCutPointsRaw img count false dir).Nodup := by
  have hL : 1 ≤ axisLen img dir := le_trans hc hcL
  have hone : 1 ≤ axisLen img dir / count := (Nat.one_le_div_iff (by omega)).mpr hcL
  have hmono : ∀ j j' : Nat, j < j' →
      (j + 1) * axisLen img dir / count < (j' + 1) * axisLen img dir / count := by
    intro j j' hjj'
    have hstep : (j + 1) * axisLen img dir / count + 1
        ≤ (j + 2) * axisLen img dir / count := by
      calc (j + 1) * axisLen img dir / count + 1
          ≤ (j + 1) * axisLen img dir / count + axisLen img dir / count := by omega
        _ ≤ ((j + 1) * axisLen img dir + axisLen img dir) / count :=
            nat_div_add_div_le _ _ _
        _ = (j + 2) * axisLen img dir / count := by ring_nf
    have hmono' : (j + 2) * axisLen img dir / count
        ≤ (j' + 1) * axisLen img dir / count :=
      Nat.div_le_div_right (Nat.mul_le_mul_right _ (by omega))
    omega
  have hposm : ∀ j : Nat, 1 ≤ (j + 1) * axisLen img dir / count := by
    intro j
    calc 1 ≤ axisLen img dir / count := hone
      _ ≤ (j + 1) * axisLen img dir / count :=
          Nat.div_le_div_right (by
            calc axisLen img dir = 1 * axisLen img dir := (Nat.one_mul _).symm
              _ ≤ (j + 1) * axisLen img dir := Nat.mul_le_mul_right _ (by omega))
  have hltL : ∀ j : Nat, j < count - 1 →
      (j + 1) * axisLen img dir / count < axisLen img dir := by
    intro j hj
    rw [Nat.div_lt_iff_lt_mul (by omega)]
    calc (j + 1) * axisLen img dir < count * axisLen img dir :=
          Nat.mul_lt_mul_of_lt_of_le (by omega) (le_refl _) (by omega)
      _ = axisLen img dir * count := Nat.mul_comm _ _
  rw [sliceCutPointsRaw_naive]
  have hpw : ((0 : Int) ::
      (((List.range (count - 1)).map
        (fun j => (((j + 1) * axisLen img dir / count : Nat) : Int)))
      ++ [(axisLen img dir : Int)])).Pairwise (· < ·) := by
    refine List.pairwise_cons.mpr ⟨?_, ?_⟩
    · intro x hx
      rcases List.mem_append.mp hx with hx | hx
      · rcases List.mem_map.mp hx with ⟨j, _, rfl⟩
        have := hposm j
        omega
      · have : x = (axisLen img dir : Int) := by simpa using hx
        omega
    · refine List.pairwise_append.mpr ⟨?_, ?_, ?_⟩
      · refine List.pairwise_map.mpr ?_
        refine (List.pairwise_lt_range _).imp ?_
        intro j j' hjj'
        exact_mod_cast hmono j j' hjj'
      · exact List.pairwise_singleton _ _
      · intro x hx y hy
        rcases List.mem_map.mp hx with ⟨j, hj, rfl⟩
        have hy' : y = (axisLen img dir : Int) := by simpa using hy
        have := hltL j (List.mem_range.mp hj)
        omega
  exact hpw.imp (fun h => ne_of_lt h)

theorem sliceCutPoints_naive_length (img : PImage) (count : Nat) (dir : Direction)
    (hc : 1 ≤ count) (hcL : count ≤ axisLen img dir) :
    (sliceCutPoints img count false dir).length = count + 1 := by
  unfold sliceCutPoints
  rw [sortedDedup_length_of_nodup _ (sliceCutPointsRaw_naive_nodup img count dir hc hcL)]
  exact sliceCutPointsRaw_length img count false dir hc

/-- **C1 (amended).** For every image with non-degenerate axis and every
`count = k ≥ 1`, in both naive and smart mode, `slice_image` produces between 1 and
`k` segments along the chosen axis that are pairwise non-overlapping,
axis-contiguous, each of positive length, and whose union reconstructs the full
axis span from 0 to the (post-resize) axis length; the count can drop below `k`
because coinciding cut points are deduplicated, but in naive mode with
`k ≤ axis length` it is exactly `k`. -/
theorem claim_C1_amended (img : PImage) (count : Nat) (smart : Bool) (dir : Direction)
    (hc : 1 ≤ count) (hL : 1 ≤ axisLen img dir) :
    1 ≤ (sliceSegments img count smart dir).length ∧
    (sliceSegments img count smart dir).length ≤ count ∧
    (∀ s ∈ sliceSegments img count smart dir, s.1 < s.2) ∧
    (sliceSegments img count smart dir).Chain' (fun s t => s.2 = t.1) ∧
    (sliceSegments img count smart dir).Pairwise (fun s t => s.2 ≤ t.1) ∧
    ((sliceSegments img count smart dir).head?).map Prod.fst = some 0 ∧
    ((sliceSegments img count smart dir).getLast?).map Prod.snd
      = some (axisLen img dir : Int) ∧
    ((sliceSegments img count smart dir).map (fun s => s.2 - s.1)).sum
      = (axisLen img dir : Int) ∧
    (smart = false → count ≤ axisLen img dir →
      (sliceSegments img count smart dir).length = count) := by
  have hpw := sliceCutPoints_pairwise img count smart dir
  have hseq := sliceSegments_eq img count smart dir
  have h2 := sliceCutPoints_two_le img count smart dir hL
  have hhead := sliceCutPoints_head img count smart dir hc hL
  have hlast := sliceCutPoints_getLast img count smart dir hc hL
  have hlen := sliceCutPoints_length_le img count smart dir hc
  obtain ⟨b, t', hcp⟩ : ∃ b t', sliceCutPoints img count smart dir = 0 :: b :: t' := by
    cases hcp : sliceCutPoints img count smart dir with
    | nil => rw [hcp] at h2; simp at h2
    | cons a t =>
      cases t with
      | nil => rw [hcp] at h2; simp at h2
      | cons b t' =>
        refine ⟨b, t', ?_⟩
        have ha : a = 0 := by
          rw [hcp] at hhead
          simpa using hhead
        rw [ha]
  have hlastg : (0 :: b :: t').getLast? = some (axisLen img dir : Int) := by
    rw [← hcp]
    exact hlast
  refine ⟨?_, ?_, ?_, ?_, ?_, ?_, ?_, ?_, ?_⟩
  · rw [hseq, adjPairs_length, hcp]
    simp
  · rw [hseq, adjPairs_length]
    omega
  · rw [hseq]
    exact adjPairs_pos _ hpw
  · rw [hseq]
    exact adjPairs_chain _
  · rw [hseq]
    exact adjPairs_pairwise _ hpw
  · rw [hseq, hcp, adjPairs_head]
    rfl
  · rw [hseq, hcp, adjPairs_getLast]
    rw [List.getLast?_cons_cons] at hlastg
    exact hlastg
  · rw [hseq, hcp, adjPairs_telescope]
    have hgl : (0 :: b :: t').getLast (List.cons_ne_nil 0 (b :: t'))
        = (axisLen img dir : Int) := by
      have h := List.getLast?_eq_getLast (0 :: b :: t') (List.cons_ne_nil 0 (b :: t'))
      rw [h] at hlastg
      exact Option.some_injective _ hlastg
    rw [hgl]
    ring
  · intro hsmart hcount
    rw [hseq, adjPairs_length, hsmart, sliceCutPoints_naive_length img count dir hc hcount]
    omega

/-- A degenerate all-zero 1×2 image (axis length 2). -/
def img2 : PImage := ⟨1, 2, 1, fun _ _ _ => 0⟩

theorem img2_cutPoints : sliceCutPoints img2 3 false Direction.horizontal = [0, 1, 2] := by
  unfold sliceCutPoints
  rw [sliceCutPointsRaw_naive]
  decide

/-- **C1 counterexample.** Slicing a 2-pixel-tall image into `k = 3` naive pieces
yields only 2 segments, not 3: the naive cut points `int(1·2/3) = 0` and
`int(2·2/3) = 1` collide with the edge 0, and `sorted(list(set(...)))`
deduplicates them, so "exactly k segments" fails. -/
theorem claim_C1_counterexample :
    (sliceSegments img2 3 false Direction.horizontal).length = 2 ∧
    (sliceSegments img2 3 false Direction.horizontal).length ≠ 3 := by
  have h : (sliceSegments img2 3 false Direction.horizontal).length = 2 := by
    rw [sliceSegments_eq, img2_cutPoints]
    rfl
  exact ⟨h, by omega⟩

/-- Witness for the amended C1: a 1×2 image sliced naively into 2 pieces gives
between 1 and 2 segments summing to the axis length, and (naive, `k ≤ L`) exactly 2. -/
theorem claim_C1_amended_witness :
    1 ≤ (sliceSegments img2 2 false Direction.horizontal).length ∧
    (sliceSegments img2 2 false Direction.horizontal).length ≤ 2 ∧
    ((sliceSegments img2 2 false Direction.horizontal).map (fun s => s.2 - s.1)).sum
      = (axisLen img2 Direction.horizontal : Int) ∧
    (sliceSegments img2 2 false Direction.horizontal).length = 2 := by
  have h := claim_C1_amended img2 2 false Direction.horizontal (by omega) (by decide)
  exact ⟨h.1, h.2.1, h.2.2.2.2.2.2.2.1, h.2.2.2.2.2.2.2.2 rfl (by decide)⟩

/-! ## Grid slicing (`slicer.slice_grid_image`)

`cell_width = width / cols` (float), cell starts `int(i * cell)`, ends forced to
the image edge for the last row/column. -/

/-- `int(idx * (total / cells))`: the start coordinate of grid cell `idx`. -/
def gridStart (total cells idx : Nat) : Int :=
  pyint ((idx : ℚ) * ((total : ℚ) / (cells : ℚ)))

/-- `int((idx+1) * cell)` except that the last cell is forced to the image edge. -/
def gridEnd (total cells idx : Nat) : Int :=
  if idx = cells - 1 then (total : Int) else gridStart total cells (idx + 1)

/-- The crop rectangles `(left, upper, right, lower)` of `slice_grid_image`, in the
row-major order the loop visits them. -/
def gridBoxes (W H rows cols : Nat) : List (Int × Int × Int × Int) :=
  (List.range rows).flatMap (fun r => (List.range cols).map (fun c =>
    (gridStart W cols c, gridStart H rows r, gridEnd W cols c, gridEnd H rows r)))

theorem gridStart_eq (total cells idx : Nat) :
    gridStart total cells idx = ((idx * total / cells : Nat) : Int) := by
  unfold gridStart
  rw [show ((idx : ℚ)) * ((total : ℚ) / (cells : ℚ))
      = ((idx * total : Nat) : ℚ) / ((cells : ℚ)) from by push_cast; ring]
  rw [pyint_of_nonneg (by positivity), floor_natCast_div]

/-- The forced end of each cell equals the start of the next (the forcing is exact
in the rational model: `cells * (total/cells) = total`). -/
theorem gridEnd_eq (total cells idx : Nat) (hcell : 1 ≤ cells) (hidx : idx < cells) :
    gridEnd total cells idx = ((( idx + 1) * total / cells : Nat) : Int) := by
  unfold gridEnd
  by_cases h : idx = cells - 1
  · rw [if_pos h, h]
    have : (cells - 1 + 1) = cells := by omega
    rw [this, Nat.mul_div_cancel_left total (by omega : 0 < cells)]
  · rw [if_neg h, gridStart_eq]

theorem gridBoxes_length (W H rows cols : Nat) :
    (gridBoxes W H rows cols).length = rows * cols := by
  simp [gridBoxes, List.length_flatMap, Function.comp_def, List.map_const',
    List.sum_replicate, smul_eq_mul]

theorem mem_gridBoxes (W H rows cols : Nat) (box : Int × Int × Int × Int) :
    box ∈ gridBoxes W H rows cols ↔ ∃ r, r < rows ∧ ∃ c, c < cols ∧
      box = (gridStart W cols c, gridStart H rows r, gridEnd W cols c, gridEnd H rows r) := by
  unfold gridBoxes
  simp only [List.mem_flatMap, List.mem_map, List.mem_range]
  constructor
  · rintro ⟨r, hr, c, hc, rfl⟩
    exact ⟨r, hr, c, hc, rfl⟩
  · rintro ⟨r, hr, c, hc, rfl⟩
    exact ⟨r, hr, c, hc, rfl⟩

/-- Unique 1-D cell containing a coordinate, for the fair natural-division
partition `c ↦ c*W/n`. -/
theorem nat_div_partition (W n x : Nat) (hn : 0 < n) (hx : x < W) :
    ∃! c, c < n ∧ c * W / n ≤ x ∧ x < (c + 1) * W / n := by
  have hmono : ∀ a b : Nat, a ≤ b → a * W / n ≤ b * W / n := by
    intro a b hab
    exact Nat.div_le_div_right (Nat.mul_le_mul_right _ hab)
  obtain ⟨c₀, hc₀lt, hPc, hupper⟩ :
      ∃ c, c < n ∧ c * W / n ≤ x ∧ x < (c + 1) * W / n := by
    by_contra hno
    push_neg at hno
    have hall : ∀ c, c ≤ n → c * W / n ≤ x := by
      intro c hc
      induction c with
      | zero => simp
      | succ k ih => exact hno k (by omega) (ih (by omega))
    have hn' := hall n (le_refl n)
    rw [Nat.mul_div_cancel_left W hn] at hn'
    omega
  refine ⟨c₀, ⟨hc₀lt, hPc, hupper⟩, ?_⟩
  intro y ⟨hy1, hy2, hy3⟩
  by_contra hne
  rcases Nat.lt_or_ge y c₀ with h | h
  · have : (y + 1) * W / n ≤ c₀ * W / n := hmono _ _ (by omega)
    omega
  · have hlt : c₀ < y := by omega
    have : (c₀ + 1) * W / n ≤ y * W / n := hmono _ _ (by omega)
    omega

/-- **C6.** For every `W×H` image and `rows, cols ≥ 1`, `slice_grid_image` produces
exactly `rows*cols` crop rectangles; each start coordinate is `int(i * cell)` for
the floating-point cell size, the end of every cell in the last row/column is
forced to exactly `H`/`W`, and the rectangles tile the full `W×H` pixel area with
no gaps and no overlaps: every pixel lies in exactly one rectangle. -/
theorem claim_C6_grid_tiling (W H rows cols : Nat) (hr : 1 ≤ rows) (hc : 1 ≤ cols) :
    (gridBoxes W H rows cols).length = rows * cols ∧
    gridEnd W cols (cols - 1) = (W : Int) ∧
    gridEnd H rows (rows - 1) = (H : Int) ∧
    (∀ x y : Nat, x < W → y < H →
      ∃! box : Int × Int × Int × Int, box ∈ gridBoxes W H rows cols ∧
        box.1 ≤ (x : Int) ∧ (x : Int) < box.2.2.1 ∧
        box.2.1 ≤ (y : Int) ∧ (y : Int) < box.2.2.2) := by
  refine ⟨gridBoxes_length W H rows cols, by simp [gridEnd], by simp [gridEnd], ?_⟩
  intro x y hx hy
  obtain ⟨c, ⟨hc1, hc2, hc3⟩, hcu⟩ := nat_div_partition W cols x (by omega) hx
  obtain ⟨r, ⟨hr1, hr2, hr3⟩, hru⟩ := nat_div_partition H rows y (by omega) hy
  refine ⟨(gridStart W cols c, gridStart H rows r, gridEnd W cols c, gridEnd H rows r),
    ⟨(mem_gridBoxes W H rows cols _).mpr ⟨r, hr1, c, hc1, rfl⟩, ?_, ?_, ?_, ?_⟩, ?_⟩
  · dsimp only
    rw [gridStart_eq]
    exact_mod_cast hc2
  · dsimp only
    rw [gridEnd_eq W cols c hc hc1]
    exact_mod_cast hc3
  · dsimp only
    rw [gridStart_eq]
    exact_mod_cast hr2
  · dsimp only
    rw [gridEnd_eq H rows r hr hr1]
    exact_mod_cast hr3
  · rintro box' ⟨hmem', hb1, hb2, hb3, hb4⟩
    obtain ⟨r', hr', c', hc', rfl⟩ := (mem_gridBoxes W H rows cols box').mp hmem'
    dsimp only at hb1 hb2 hb3 hb4
    rw [gridStart_eq] at hb1 hb3
    rw [gridEnd_eq W cols c' hc hc'] at hb2
    rw [gridEnd_eq H rows r' hr hr'] at hb4
    have hceq : c' = c := hcu c' ⟨hc', by exact_mod_cast hb1, by exact_mod_cast hb2⟩
    have hreq : r' = r := hru r' ⟨hr', by exact_mod_cast hb3, by exact_mod_cast hb4⟩
    rw [hceq, hreq]

/-- Witness for C6 at a 5×3 image in a 2×2 grid: 4 rectangles, forced edges, and
the pixel `(4, 2)` lies in exactly one rectangle. -/
theorem claim_C6_grid_tiling_witness :
    (gridBoxes 5 3 2 2).length = 2 * 2 ∧
    gridEnd 5 2 (2 - 1) = (5 : Int) ∧
    (∃! box : Int × Int × Int × Int, box ∈ gridBoxes 5 3 2 2 ∧
      box.1 ≤ ((4 : Nat) : Int) ∧ ((4 : Nat) : Int) < box.2.2.1 ∧
      box.2.1 ≤ ((2 : Nat) : Int) ∧ ((2 : Nat) : Int) < box.2.2.2) := by
  have h := claim_C6_grid_tiling 5 3 2 2 (by omega) (by omega)
  exact ⟨h.1, h.2.1, h.2.2.2 4 2 (by omega) (by omega)⟩

/-! ## Grouping for multi-sheet stitching (`stitcher.stitch_images`)

```python
avg = len(image_paths) // split_count
remainder = len(image_paths) % split_count
start = 0
for i in range(split_count):
    count = avg + (1 if i < remainder else 0)
    groups.append(image_paths[start:start+count])
    start += count
```
-/

/-- Successive slices of `l` of the given lengths. -/
def chunks {α : Type} : List α → List Nat → List (List α)
  | _, [] => []
  | l, c :: cs => l.take c :: chunks (l.drop c) cs

/-- The group sizes: `avg + 1` for the first `M % split` groups, `avg` after. -/
def groupCounts (M split : Nat) : List Nat :=
  (List.range split).map (fun i => M / split + if i < M % split then 1 else 0)

/-- The grouping step of `stitch_images` for non-grid modes. -/
def makeGroups {α : Type} (paths : List α) (split : Nat) : List (List α) :=
  if 1 < split then chunks paths (groupCounts paths.length split) else [paths]

theorem chunks_length {α : Type} : ∀ (cs : List Nat) (l : List α),
    (chunks l cs).length = cs.length
  | [], _ => rfl
  | c :: cs, l => by
    unfold chunks
    rw [List.length_cons, List.length_cons, chunks_length cs]

theorem chunks_join {α : Type} : ∀ (cs : List Nat) (l : List α),
    l.length ≤ cs.sum → (chunks l cs).flatten = l
  | [], l => by
    intro h
    have : l = [] := List.eq_nil_of_length_eq_zero (by simpa using h)
    rw [this]
    rfl
  | c :: cs, l => by
    intro h
    unfold chunks
    rw [List.flatten_cons]
    rw [chunks_join cs (l.drop c) (by
      rw [List.length_drop]
      rw [List.sum_cons] at h
      omega)]
    exact List.take_append_drop c l

theorem chunks_map_length {α : Type} : ∀ (cs : List Nat) (l : List α),
    cs.sum ≤ l.length → (chunks l cs).map List.length = cs
  | [], _ => by intro _; rfl
  | c :: cs, l => by
    intro h
    rw [List.sum_cons] at h
    unfold chunks
    rw [List.map_cons]
    rw [List.length_take]
    rw [chunks_map_length cs (l.drop c) (by rw [List.length_drop]; omega)]
    congr 1
    omega

theorem groupCounts_sum (M split : Nat) (hs : 1 ≤ split) : (groupCounts M split).sum = M := by
  have hgen : ∀ (n a r : Nat),
      ((List.range n).map (fun i => a + if i < r then 1 else 0)).sum = n * a + min r n := by
    intro n a r
    induction n with
    | zero => simp
    | succ k ih =>
      rw [List.range_succ, List.map_append, List.sum_append, ih]
      simp only [List.map_cons, List.map_nil, List.sum_cons, List.sum_nil]
      by_cases hk : k < r
      · rw [if_pos hk]
        have : min r (k + 1) = min r k + 1 := by omega
        rw [this]
        ring
      · rw [if_neg hk]
        have : min r (k + 1) = min r k := by omega
        rw [this]
        ring
  unfold groupCounts
  rw [hgen]
  have hmod : M % split < split := Nat.mod_lt M (by omega)
  have : min (M % split) split = M % split := by omega
  rw [this]
  exact Nat.div_add_mod M split

/-- **C7.** For every non-empty list of `M` images and `1 ≤ split_count ≤ M` in a
non-grid stitch, the grouping step partitions the list contiguously and
order-preservingly into exactly `split_count` groups whose sizes are
`⌊M/split⌋` or `⌊M/split⌋ + 1`, the remainder going to the first `M % split`
groups, and every source image belongs to exactly one group (the concatenation of
the groups is the input list). -/
theorem claim_C7_grouping {α : Type} (paths : List α) (split : Nat)
    (h1 : 1 ≤ split) (h2 : split ≤ paths.length) :
    (makeGroups paths split).length = split ∧
    (makeGroups paths split).flatten = paths ∧
    (makeGroups paths split).map List.length = groupCounts paths.length split ∧
    (∀ g ∈ makeGroups paths split,
      g.length = paths.length / split ∨ g.length = paths.length / split + 1) := by
  unfold makeGroups
  by_cases hs : 1 < split
  · rw [if_pos hs]
    have hsum := groupCounts_sum paths.length split h1
    have hlen : (groupCounts paths.length split).length = split := by
      unfold groupCounts
      rw [List.length_map, List.length_range]
    refine ⟨?_, ?_, ?_, ?_⟩
    · rw [chunks_length, hlen]
    · exact chunks_join _ _ (by omega)
    · exact chunks_map_length _ _ (by omega)
    · intro g hg
      have hmap := chunks_map_length (groupCounts paths.length split) paths (by omega)
      have : g.length ∈ groupCounts paths.length split := by
        rw [← hmap]
        exact List.mem_map_of_mem List.length hg
      unfold groupCounts at this
      rcases List.mem_map.mp this with ⟨i, _, hi⟩
      by_cases hir : i < paths.length % split
      · rw [if_pos hir] at hi
        right
        omega
      · rw [if_neg hir] at hi
        left
        omega
  · have hs1 : split = 1 := by omega
    rw [if_neg hs, hs1]
    refine ⟨rfl, by simp, ?_, ?_⟩
    · unfold groupCounts
      simp [List.range_succ, Nat.mod_one]
    · intro g hg
      have : g = paths := by simpa using hg
      left
      rw [this]
      simp

/-- Witness for C7: 10 equal images into 3 groups — sizes 4, 3, 3. -/
theorem claim_C7_grouping_witness :
    (makeGroups (List.range 10) 3).length = 3 ∧
    (makeGroups (List.range 10) 3).flatten = List.range 10 ∧
    (makeGroups (List.range 10) 3).map List.length = groupCounts 10 3 := by
  have h := claim_C7_grouping (List.range 10) 3 (by omega) (by simp)
  refine ⟨h.1, h.2.1, ?_⟩
  have := h.2.2.1
  simpa using this

/-! ## Invalid grid geometry (`slice_grid_image`, `_stitch_grid`)

`slice_grid_image` computes `cell_width = width / cols` and
`cell_height = height / rows` *before* creating the output directory, so a zero
divisor raises `ZeroDivisionError`, is caught by the `except` clause, and the
function returns `(False, message)` with no directory created; but there is no
explicit `rows/cols ≤ 0` validation: negative values sail through (`range` of a
negative number is empty), the directory *is* created, zero cells are written and
the function reports success.  `_stitch_grid` silently clamps non-positive
`rows`/`cols` to 1 and proceeds. -/

/-- Observable outcome of a `slice_grid_image` call on an existing, decodable
image (the happy path for file access): the returned flag, whether the output
directory was created, and how many cell files were written. -/
structure GridSliceOutcome where
  ok : Bool
  dirCreated : Bool
  filesWritten : Nat
  deriving DecidableEq, Repr

/-- `slice_grid_image` geometry/IO skeleton: division by zero aborts before the
directory is created; otherwise `range(rows)`/`range(cols)` (empty for negative
values) drive the writes and the call reports success. -/
def sliceGridRun (width height : Nat) (rows cols : Int) : GridSliceOutcome :=
  if cols = 0 ∨ rows = 0 then ⟨false, false, 0⟩
  else ⟨true, true, (max rows 0).toNat * (max cols 0).toNat⟩

/-- The clamping at the top of `_stitch_grid`:
`if rows <= 0: rows = 1` / `if cols <= 0: cols = 1`. -/
def stitchGridClamp (rows cols : Int) : Int × Int :=
  (if rows ≤ 0 then 1 else rows, if cols ≤ 0 then 1 else cols)

/-- **C8 counterexample.** A grid slice with `rows = -1, cols = 2` is *not*
rejected: no exception occurs (`height / -1` is fine and `range(-1)` is empty), the
output directory is created, zero cell files are written, and the call returns
success — contradicting "rejected before any I/O and reported as a single failure
message" for `rows ≤ 0`. -/
theorem claim_C8_counterexample :
    (sliceGridRun 10 10 (-1) 2).ok = true ∧
    (sliceGridRun 10 10 (-1) 2).dirCreated = true ∧
    (sliceGridRun 10 10 (-1) 2).filesWritten = 0 := by
  refine ⟨?_, ?_, ?_⟩ <;> decide

/-- **C8 (amended).** Grid slicing rejects only *zero* `rows`/`cols`, via the
`ZeroDivisionError` raised when computing the cell size — before the output
directory is created — and reports a single failure; with negative `rows` or
`cols` it creates the output directory, writes no cell, and still reports
success.  Grid stitching never rejects: `_stitch_grid` clamps non-positive
`rows`/`cols` to 1 and proceeds. -/
theorem claim_C8_amended (width height : Nat) (rows cols : Int) :
    ((rows = 0 ∨ cols = 0) → sliceGridRun width height rows cols = ⟨false, false, 0⟩) ∧
    (rows ≠ 0 → cols ≠ 0 → (rows < 0 ∨ cols < 0) →
      sliceGridRun width height rows cols = ⟨true, true, 0⟩) ∧
    (rows ≤ 0 → (stitchGridClamp rows cols).1 = 1) ∧
    (cols ≤ 0 → (stitchGridClamp rows cols).2 = 1) := by
  refine ⟨?_, ?_, ?_, ?_⟩
  · intro h
    unfold sliceGridRun
    rw [if_pos (by tauto)]
  · intro hr hc hneg
    unfold sliceGridRun
    rw [if_neg (by tauto)]
    have : (max rows 0).toNat * (max cols 0).toNat = 0 := by
      rcases hneg with h | h
      · have : (max rows 0).toNat = 0 := by
          have : max rows 0 = 0 := by omega
          rw [this]
          rfl
        rw [this, Nat.zero_mul]
      · have : (max cols 0).toNat = 0 := by
          have : max cols 0 = 0 := by omega
          rw [this]
          rfl
        rw [this, Nat.mul_zero]
    rw [this]
  · intro h
    unfold stitchGridClamp
    rw [if_pos h]
  · intro h
    unfold stitchGridClamp
    rw [if_pos h]

/-- Witness for the amended C8 at concrete inputs: zero rows reject without I/O,
negative rows succeed with the directory created, and the stitch clamp maps
`rows = 0` to 1. -/
theorem claim_C8_amended_witness :
    sliceGridRun 10 10 0 2 = ⟨false, false, 0⟩ ∧
    sliceGridRun 10 10 (-1) 2 = ⟨true, true, 0⟩ ∧
    (stitchGridClamp 0 2).1 = 1 := by
  have h1 := claim_C8_amended 10 10 0 2
  have h2 := claim_C8_amended 10 10 (-1) 2
  exact ⟨h1.1 (Or.inl rfl), h2.2.1 (by omega) (by omega) (Or.inl (by omega)),
    h1.2.2.1 (by omega)⟩

/-! ## Batch stitching and decode failures (`stitch_images`)

Per group, each path is opened in a `try`; failures print a console warning and the
path is skipped.  Groups whose images all failed are skipped entirely.  The
function returns `(True, f"Successfully created {len(saved_files)} images
({mode}, {output_format}).")` — the returned message carries only the count. -/

/-- Whether `sub` is a prefix of `l`. -/
def startsWithChars : List Char → List Char → Bool
  | _, [] => true
  | [], _ :: _ => false
  | c :: cs, d :: ds => c = d && startsWithChars cs ds

def strContainsAux : List Char → List Char → Bool
  | [], sub => sub.isEmpty
  | c :: cs, sub => startsWithChars (c :: cs) sub || strContainsAux cs sub

/-- Whether `sub` occurs as a substring of `s`. -/
def strContains (s sub : String) : Bool := strContainsAux s.data sub.data

/-- The final message f-string of `stitch_images`. -/
def finalMessage (n : Nat) (mode fmt : String) : String :=
  "Successfully created " ++ toString n ++ " images (" ++ mode ++ ", " ++ fmt ++ ")."

/-- Per group, the decodable images in order; groups with no decodable image are
dropped (both the `if not group_paths: continue` and `if not images: continue`
skips). -/
def stitchOutputs {α : Type} (decode : α → Bool) (groups : List (List α)) :
    List (List α) :=
  groups.filterMap (fun g =>
    if (g.filter decode).isEmpty then none else some (g.filter decode))

/-- `stitch_images` control flow distilled to what C9 is about: the returned flag
and message, given which source paths decode. -/
def stitchRun {α : Type} (decode : α → Bool) (paths : List α) (split : Nat)
    (mode fmt : String) : Bool × String :=
  if paths.isEmpty then (false, "No images to stitch.")
  else
    (true,
      finalMessage
        (stitchOutputs decode
          (if mode = "grid" then [paths] else makeGroups paths split)).length
        mode fmt)

theorem makeGroups_flatten {α : Type} (paths : List α) (split : Nat) (h1 : 1 ≤ split) :
    (makeGroups paths split).flatten = paths := by
  unfold makeGroups
  by_cases hs : 1 < split
  · rw [if_pos hs]
    exact chunks_join _ _ (by rw [groupCounts_sum paths.length split h1])
  · rw [if_neg hs]
    simp

theorem stitchOutputs_flatten {α : Type} (decode : α → Bool) :
    ∀ groups : List (List α),
      (stitchOutputs decode groups).flatten = (groups.flatten).filter decode
  | [] => rfl
  | g :: gs => by
    unfold stitchOutputs
    rw [List.flatten_cons, List.filter_append]
    by_cases hg : (g.filter decode).isEmpty
    · rw [List.filterMap_cons_none (by rw [if_pos hg])]
      have : g.filter decode = [] := List.isEmpty_iff.mp hg
      rw [this]
      rw [List.nil_append]
      exact stitchOutputs_flatten decode gs
    · rw [List.filterMap_cons_some (by rw [if_neg hg])]
      rw [List.flatten_cons]
      have ih := stitchOutputs_flatten decode gs
      unfold stitchOutputs at ih
      rw [ih]

/-- **C9 counterexample.** In a batch of two images where `"bad.png"` fails to
decode, the batch is not aborted and the remaining image is composed — but the
failure is *not* collected into the final returned message: the message is the
bare success count and does not even contain the failing path (warnings go only to
the console). -/
theorem claim_C9_counterexample :
    (fun s : String => decide (s ≠ "bad.png")) "bad.png" = false ∧
    (stitchRun (fun s : String => decide (s ≠ "bad.png")) ["a.png", "bad.png"] 1
      "vertical" "AUTO").1 = true ∧
    strContains
      (stitchRun (fun s : String => decide (s ≠ "bad.png")) ["a.png", "bad.png"] 1
        "vertical" "AUTO").2 "bad" = false := by
  refine ⟨by decide, by decide, by decide⟩

/-- **C9 (amended).** Every source image that fails to decode is skipped per-item
(with a console warning) and never aborts the batch: `stitch_images` still composes
exactly the decodable images of each group, in order, and returns success — but the
failures are *not* collected into the returned message, which reports only the
number of sheets created. -/
theorem claim_C9_amended {α : Type} (decode : α → Bool) (paths : List α) (split : Nat)
    (mode fmt : String) (hne : paths ≠ []) (hmode : mode ≠ "grid") (h1 : 1 ≤ split) :
    (stitchRun decode paths split mode fmt).1 = true ∧
    (stitchOutputs decode (makeGroups paths split)).flatten = paths.filter decode ∧
    (stitchRun decode paths split mode fmt).2
      = finalMessage (stitchOutputs decode (makeGroups paths split)).length mode fmt := by
  have hney : paths.isEmpty = false := by
    cases paths with
    | nil => exact absurd rfl hne
    | cons a t => rfl
  refine ⟨?_, ?_, ?_⟩
  · unfold stitchRun
    rw [hney]
    rfl
  · rw [stitchOutputs_flatten decode (makeGroups paths split),
      makeGroups_flatten paths split h1]
  · unfold stitchRun
    rw [hney, if_neg hmode]
    rfl

/-- Witness for the amended C9 on the two-image batch with one decode failure. -/
theorem claim_C9_amended_witness :
    (stitchRun (fun s : String => decide (s ≠ "bad.png")) ["a.png", "bad.png"] 1
      "vertical" "AUTO").1 = true ∧
    (stitchOutputs (fun s : String => decide (s ≠ "bad.png"))
        (makeGroups ["a.png", "bad.png"] 1)).flatten
      = (["a.png", "bad.png"].filter (fun s : String => decide (s ≠ "bad.png"))) := by
  have h := claim_C9_amended (fun s : String => decide (s ≠ "bad.png"))
    ["a.png", "bad.png"] 1 "vertical" "AUTO" (by simp) (by decide) (by omega)
  exact ⟨h.1, h.2.1⟩
